import Mathlib

namespace FF

/-- Adjacency matrices (`graph`, `residual_graph`, `current_flow`,
`latest_augmenting_path` in `ff.py`) as lists of rows of integers. -/
abbrev Mat := List (List Int)

/-- Read `m[i][j]`, with value `0` outside the matrix (all in-source reads
are within bounds; the claims only quantify over in-range indices). -/
def getM (m : Mat) (i j : Nat) : Int := (m.getD i []).getD j 0

/-- Write `m[i][j] = x` (no-op outside the matrix; all in-source writes are
within bounds). -/
def setM (m : Mat) (i j : Nat) (x : Int) : Mat := m.set i ((m.getD i []).set j x)

/-- `[[0 for _ in row] for row in m]` — an all-zero matrix of the same
dimensions as `m`. -/
def zerosLike (m : Mat) : Mat := m.map (fun row => row.map (fun _ => (0 : Int)))

/-- The state of `ff.py`'s `Graph` class: original capacities, residual
capacities, the 0/1 matrix of the most recent augmenting path, and the
recorded flow. -/
structure Graph where
  graph : Mat
  residual_graph : Mat
  latest_augmenting_path : Mat
  current_flow : Mat
deriving Repr, DecidableEq

/-- `Graph.__init__`: the residual graph starts as a copy of the capacity
matrix, the path marker and flow matrices start all-zero. -/
def Graph.init (g : Mat) : Graph :=
  { graph := g
    residual_graph := g
    latest_augmenting_path := zerosLike g
    current_flow := zerosLike g }

/-- The parent-pointer walk at the end of `Graph._bfs` (lines 117–125):
starting from `(parent, idx) = (parents[sink], sink)` it marks
`latest_augmenting_path[parent][idx] = 1`, stops once `parents[parent]` is
`None`, and otherwise continues with `(parents[parent], parent)`.  Returns
the marked matrix together with the final value of `idx` (used by the
caller for the closing `latest_augmenting_path[source][idx] = 1` write).
The fuel dominates the length of any parent chain (parent pointers are
assigned at most once per vertex, so chains are shorter than the vertex
count); on fuel exhaustion we return the state reached so far, a case the
theorems show is never hit. -/
def markPath (parents : List (Option Nat)) : Nat → Mat → Nat → Nat → Mat × Nat
  | 0, lap, _, idx => (lap, idx)
  | fuel+1, lap, parent, idx =>
    let lap2 := setM lap parent idx 1
    match parents.getD parent none with
    | none => (lap2, idx)
    | some pp => markPath parents fuel lap2 pp parent

/-- The body of `Graph._bfs`'s `for idx, neighbour in enumerate(...)` loop
over the residual row of the dequeued `vertex` (lines 109–126), starting at
column `j` with the listed remaining entries.  An unvisited neighbour with
nonzero residual capacity is marked visited, enqueued and given `vertex` as
parent; if that neighbour is the sink, the path is reconstructed at once
(`Sum.inr`, carrying the parents and the marked path matrix), otherwise the
scan continues, finally yielding the updated BFS state (`Sum.inl`). -/
def bfsInner (res : Mat) (source sink vertex : Nat) :
    List Int → Nat → List Bool → List Nat → List (Option Nat) → Mat →
    Sum (List Bool × List Nat × List (Option Nat)) (List (Option Nat) × Mat)
  | [], _, visited, queue, parents, _ => Sum.inl (visited, queue, parents)
  | nb :: rest, j, visited, queue, parents, lap =>
    if visited.getD j false = false ∧ nb ≠ 0 then
      let visited2 := visited.set j true
      let queue2 := queue ++ [j]
      let parents2 := parents.set j (some vertex)
      if j = sink then
        let p0 := (parents2.getD sink none).getD 0
        let r := markPath parents2 (res.length + 1) lap p0 sink
        (Sum.inr (parents2, setM r.1 source r.2 1))
      else
        bfsInner res source sink vertex rest (j+1) visited2 queue2 parents2 lap
    else
      bfsInner res source sink vertex rest (j+1) visited queue parents lap

/-- `Graph._bfs`'s `while queue:` loop.  Each iteration dequeues one vertex
and scans its residual row.  Every vertex is enqueued at most once (it is
enqueued exactly when it flips from unvisited to visited), so the number of
dequeues is bounded by the vertex count and the fuel passed by
`Graph.bfs` is never exhausted before the queue empties. -/
def bfsOuter (res : Mat) (source sink : Nat) :
    Nat → List Nat → List Bool → List (Option Nat) → Mat →
    Option (List (Option Nat)) × Mat
  | 0, _, _, _, lap => (none, lap)
  | _+1, [], _, _, lap => (none, lap)
  | fuel+1, vertex :: queue, visited, parents, lap =>
    match bfsInner res source sink vertex (res.getD vertex []) 0 visited queue parents lap with
    | Sum.inl (visited2, queue2, parents2) =>
        bfsOuter res source sink fuel queue2 visited2 parents2 lap
    | Sum.inr (parents2, lap2) => (some parents2, lap2)

/-- `Graph._bfs`: resets `latest_augmenting_path` to all-zero, marks the
source visited, and runs the BFS work loop.  Returns the parents array on
success (`some parents`, Python's truthy return) or `none` (Python's
`False`) together with the resulting path-marker matrix. -/
def Graph.bfs (G : Graph) (source sink : Nat) : Option (List (Option Nat)) × Mat :=
  let n := G.graph.length
  bfsOuter G.residual_graph source sink (n + 1) [source]
    ((List.replicate n false).set source true)
    (List.replicate n none) (zerosLike G.graph)

/-- The row-major enumeration `for i, _ in enumerate(m): for j, _ in
enumerate(m[i])` of a matrix's index pairs. -/
def idxPairs (m : Mat) : List (Nat × Nat) :=
  (List.range m.length).flatMap (fun i => (List.range (m.getD i []).length).map (fun j => (i, j)))

/-- One `min` accumulation against Python's `flow = float("inf")` seed:
`none` plays the role of infinity. -/
def minOpt (acc : Option Int) (v : Int) : Option Int :=
  match acc with
  | none => some v
  | some m => some (min m v)

/-- One iteration of the bottleneck search: `if col == 1: flow = min(flow,
residual_graph[idx][idx2])`. -/
def bottStep (lap res : Mat) (acc : Option Int) (p : Nat × Nat) : Option Int :=
  if getM lap p.1 p.2 = 1 then minOpt acc (getM res p.1 p.2) else acc

/-- Lines 42–46 of `ff.py`: the minimum residual capacity over all cells
marked in the augmenting-path matrix (`none` when no cell is marked, in
which case the subsequent update loops touch nothing). -/
def bottleneck (lap res : Mat) : Option Int :=
  (idxPairs lap).foldl (bottStep lap res) none

/-- One iteration of the `# update current flow` loop (lines 49–56): a
marked cell whose original capacity is zero is a backward edge and
decrements the flow of the opposite cell, any other marked cell increments
its own flow. -/
def flowStep (lap g : Mat) (f : Int) (cf : Mat) (p : Nat × Nat) : Mat :=
  if getM lap p.1 p.2 = 1 ∧ getM g p.1 p.2 = 0 then
    setM cf p.2 p.1 (getM cf p.2 p.1 - f)
  else if getM lap p.1 p.2 = 1 then
    setM cf p.1 p.2 (getM cf p.1 p.2 + f)
  else cf

/-- The `# update current flow` loop, iterating over the index pairs of the
original capacity matrix. -/
def updateFlow (lap g : Mat) (f : Int) (cf : Mat) : Mat :=
  (idxPairs g).foldl (flowStep lap g f) cf

/-- One iteration of the `# update residual graph` loop (lines 59–63): a
marked cell loses the bottleneck amount and its transpose cell gains it. -/
def residStep (lap : Mat) (f : Int) (res : Mat) (p : Nat × Nat) : Mat :=
  if getM lap p.1 p.2 = 1 then
    let r1 := setM res p.1 p.2 (getM res p.1 p.2 - f)
    setM r1 p.2 p.1 (getM r1 p.2 p.1 + f)
  else res

/-- The `# update residual graph` loop, iterating over the index pairs of
the residual matrix. -/
def updateResidual (lap : Mat) (f : Int) (res : Mat) : Mat :=
  (idxPairs res).foldl (residStep lap f) res

/-- `Graph.ff_step`: one augmenting iteration.  If BFS finds no path the
step returns `0` (with `latest_augmenting_path` freshly zeroed by `_bfs`);
otherwise the bottleneck is pushed and the returned value is the change of
`sum(current_flow[source])`. -/
def Graph.ff_step (G : Graph) (source sink : Nat) : Int × Graph :=
  let r := G.bfs source sink
  match r.1 with
  | none => (0, { G with latest_augmenting_path := r.2 })
  | some _ =>
    let G1 : Graph := { G with latest_augmenting_path := r.2 }
    let old_flow := (G1.current_flow.getD source []).sum
    let flow := (bottleneck G1.latest_augmenting_path G1.residual_graph).getD 0
    let cf2 := updateFlow G1.latest_augmenting_path G1.graph flow G1.current_flow
    let res2 := updateResidual G1.latest_augmenting_path flow G1.residual_graph
    let new_flow := (cf2.getD source []).sum
    (new_flow - old_flow, { G1 with current_flow := cf2, residual_graph := res2 })

/-- `Graph.ford_fulkerson`'s `while True` driver, with fuel: repeatedly
perform `ff_step`, stopping (as the Python loop does) as soon as a step
returns `0`, and accumulate the returned amounts.  Any fuel at least the
number of iterations the Python loop performs yields the loop's value. -/
def Graph.ford_fulkerson (G : Graph) (source sink : Nat) : Nat → Int
  | 0 => 0
  | fuel+1 =>
    let r := G.ff_step source sink
    if r.1 = 0 then 0 else r.1 + r.2.ford_fulkerson source sink fuel

/-- A sequence of `ff_step` calls (each with its own source and sink),
starting from a given state. -/
def runCalls (G : Graph) : List (Nat × Nat) → Graph
  | [] => G
  | c :: rest => runCalls (G.ff_step c.1 c.2).2 rest

/-- The matrix is square: every row is as long as the list of rows. -/
def isSquare (m : Mat) : Bool := m.all (fun row => row.length == m.length)

/-- All entries are non-negative. -/
def isNonneg (m : Mat) : Bool := m.all (fun row => row.all (fun x => decide (0 ≤ x)))

/-- No antiparallel pair of edges: for every pair of cells, at least one of
`m[i][j]`, `m[j][i]` is zero. -/
def noAntiparallel (m : Mat) : Bool :=
  (idxPairs m).all (fun p => (getM m p.1 p.2 == 0) || (getM m p.2 p.1 == 0))

/-- `(i, j)` addresses a cell inside the matrix. -/
def inB (m : Mat) (i j : Nat) : Prop := i < m.length ∧ j < (m.getD i []).length

instance (m : Mat) (i j : Nat) : Decidable (inB m i j) := by
  unfold inB; infer_instance

/-- Number of occurrences of a pair in a pair list (as an integer, for use
in the arithmetic closed forms below). -/
def cnt (x : Nat × Nat) (l : List (Nat × Nat)) : Int :=
  (l.countP (fun q => decide (q = x)) : Int)

/-! ### Shape preservation -/

/-- Two matrices have identical dimensions. -/
def eqShape (m g : Mat) : Prop :=
  m.length = g.length ∧ ∀ i, (m.getD i []).length = (g.getD i []).length

/-! ### Propositional forms of the input predicates -/

/-- Propositional squareness: every row addressed by an in-range index is
as long as the list of rows. -/
def SquareP (g : Mat) : Prop := ∀ i, i < g.length → (g.getD i []).length = g.length

/-- Propositional non-negativity of every (in-range or not) cell. -/
def NonnegP (g : Mat) : Prop := ∀ u v, 0 ≤ getM g u v

/-- Propositional no-antiparallel-edges condition. -/
def NoAntiP (g : Mat) : Prop := ∀ u v, getM g u v = 0 ∨ getM g v u = 0

/-! ### The per-state flow invariant (used for C5 and C6) -/

/-- Invariant of the Ford–Fulkerson state reachable from `Graph.init g`:
the capacity matrix is untouched, the mutable matrices keep their shape,
the residual graph is capacities minus net flow plus reverse net flow,
residual capacities are never negative, and a cell with zero capacity never
carries positive recorded flow. -/
def FlowInv (g : Mat) (G : Graph) : Prop :=
  G.graph = g ∧
  eqShape G.residual_graph g ∧
  eqShape G.current_flow g ∧
  (∀ u v, getM G.residual_graph u v
    = getM g u v - getM G.current_flow u v + getM G.current_flow v u) ∧
  (∀ u v, 0 ≤ getM G.residual_graph u v) ∧
  (∀ u v, getM g u v = 0 → getM G.current_flow u v ≤ 0)

/-! ### BFS parent-array invariants (for C6) -/

/-- The parent chain starting at `v` reaches the source `s` within `k`
steps. -/
def good (parents : List (Option Nat)) (s : Nat) : Nat → Nat → Prop
  | 0, v => v = s
  | k+1, v => v = s ∨ ∃ u, parents.getD v none = some u ∧ good parents s k u

/-- Invariant of `_bfs`'s `(visited, parents)` state: the source is visited
and parentless; every parent entry records a traversable residual edge into
a non-source visited vertex from a visited vertex; every visited non-source
vertex has a parent; and every visited vertex's parent chain reaches the
source within `count true visited` steps. -/
structure BfsInv (res : Mat) (s : Nat) (visited : List Bool)
    (parents : List (Option Nat)) : Prop where
  pl : parents.length = res.length
  vl : visited.length = res.length
  src_none : parents.getD s none = none
  src_vis : visited.getD s false = true
  entries : ∀ v u, parents.getD v none = some u →
    v ≠ s ∧ v < res.length ∧ u < res.length ∧ getM res u v ≠ 0 ∧
      visited.getD v false = true ∧ visited.getD u false = true
  vis_par : ∀ v, visited.getD v false = true → v = s ∨ parents.getD v none ≠ none
  graded : ∀ v, visited.getD v false = true → good parents s (visited.count true) v

/-! ### The same-source strengthening of the flow invariant -/

/-- In a state reached by `ff_step` calls that all share the source `s`,
the recorded flow leaving `s` is non-negative cell by cell and the
recorded flow entering `s` is non-positive cell by cell. -/
def SourceInv (g : Mat) (s : Nat) (G : Graph) : Prop :=
  FlowInv g G ∧ (∀ x, 0 ≤ getM G.current_flow s x) ∧ (∀ x, getM G.current_flow x s ≤ 0)

/-- The classic 6-vertex textbook capacity matrix (CLRS). -/
def classicMat : Mat :=
  [[0, 16, 13, 0, 0, 0],
   [0, 0, 0, 12, 0, 0],
   [0, 4, 0, 0, 14, 0],
   [0, 0, 9, 0, 0, 20],
   [0, 0, 0, 7, 0, 4],
   [0, 0, 0, 0, 0, 0]]

end FF

namespace JKU

/-- `vertex.py` is not in the sources.  Modelled from the spec: a Vertex is
identified by a unique name (string), with equality and hashing by name
(§3), so vertices are embedded as their names. -/
abbrev Vertex := String

/-- Modelled from the spec: an edge record connecting two vertices with a
non-negative numeric weight; a single record serves both traversal
directions of the map's logically undirected edges (§3, §4.1). -/
structure Edge where
  first : String
  second : String
  weight : Nat
deriving DecidableEq, Repr

/-- `graph.py` is not in the sources.  Modelled from the spec (§4.1): the
Graph primitive holds named vertices and weighted undirected edges, kept
here in insertion order, and supports insertion by name (inserting an
existing name must not duplicate), adjacency lookup, and edge lookup by
endpoint pair returning an explicit absent signal. -/
structure Graph where
  vertices : List String
  edges : List Edge
deriving Repr

def Graph.empty : Graph := ⟨[], []⟩

/-- Modelled from the spec: vertex insertion by name; a name already
present is reused, never duplicated (§4.1). -/
def Graph.insert_vertex (G : Graph) (name : String) : Graph :=
  if name ∈ G.vertices then G else { G with vertices := G.vertices ++ [name] }

/-- Modelled from the spec: add one undirected weighted edge record. -/
def Graph.insert_edge_by_vertex_names (G : Graph) (a b : String) (w : Nat) : Graph :=
  { G with edges := G.edges ++ [⟨a, b, w⟩] }

/-- Modelled from the spec: the neighbours of a vertex, one per incident
edge record, in edge-insertion order (§4.1 leaves the order unspecified;
Dijkstra's per-round relaxations are order-independent because each
neighbour is relaxed at most once per round against the fixed current
distance). -/
def Graph.get_adjacent_vertices (G : Graph) (v : String) : List String :=
  G.edges.filterMap (fun e =>
    if e.first = v then some e.second
    else if e.second = v then some e.first
    else none)

/-- Modelled from the spec: edge lookup between an endpoint pair in either
orientation; `none` is the explicit absent signal (§4.1). -/
def Graph.find_edge (G : Graph) (a b : String) : Option Edge :=
  G.edges.find? (fun e =>
    (e.first == a && e.second == b) || (e.first == b && e.second == a))

/-- `step.py`: a waypoint record of a vertex together with the distance
covered so far (a Python float, possibly infinite, hence `Option Nat`
with `none` as infinity — in the code every created `Step` carries a
finite distance). -/
structure Step where
  point : String
  covered_distance : Option Nat
deriving DecidableEq, Repr

/-- A row of the `distances` dict: keys in insertion order, `none` for
`float("inf")`. -/
abbrev DRow := List (String × Option Nat)

/-- A row of the `paths` dict. -/
abbrev PRow := List (String × List Step)

def dget (row : DRow) (k : String) : Option Nat := (List.lookup k row).getD none

def pget (row : PRow) (k : String) : List Step := (List.lookup k row).getD []

/-- Update an existing key's value, keeping the dict's key order (the
dijkstra code only ever writes keys the rows were initialised with). -/
def dset (row : DRow) (k : String) (v : Option Nat) : DRow :=
  row.map (fun p => if p.1 = k then (p.1, v) else p)

def pset (row : PRow) (k : String) (v : List Step) : PRow :=
  row.map (fun p => if p.1 = k then (p.1, v) else p)

/-- Strict `<` on distances with `none` as `float("inf")` (so
`inf < inf` is false, matching Python's float comparison). -/
def ltInf : Option Nat → Option Nat → Bool
  | some a, some b => decide (a < b)
  | some _, none => true
  | none, _ => false

/-- `distances[cur] + weight` with `inf + w = inf`. -/
def addInf : Option Nat → Nat → Option Nat
  | some a, w => some (a + w)
  | none, _ => none

/-- Insert into an ascending-by-distance list, after all entries whose
distance is not greater — together with the fold below this is a stable
ascending sort, which agrees with Python's stable `sorted`. -/
def insDist (x : String × Option Nat) : List (String × Option Nat) → List (String × Option Nat)
  | [] => [x]
  | y :: ys => if ltInf x.2 y.2 then x :: y :: ys else y :: insDist x ys

/-- `sorted(distances, key=distances.get)`: the keys of the distances dict
stably sorted by their distance, infinities last. -/
def sortedByDist (row : DRow) : List String :=
  (row.foldl (fun acc x => insDist x acc) []).map Prod.fst

/-- One relaxation of `_dijkstra`'s `for vertex in
self.get_adjacent_vertices(cur)` loop body (lines 135–149): an unvisited
neighbour with a strictly shorter route through `cur` gets its distance
updated; `paths[cur]` is seeded with `[Step(cur, distances[cur])]` if it is
still empty, and `paths[vertex]` becomes `paths[cur] + [Step(vertex,
distances[vertex])]` with the just-updated distance. -/
def relax (G : Graph) (cur : String) (visited : List String) :
    DRow × PRow → String → DRow × PRow :=
  fun dp vertex =>
    if vertex ∈ visited then dp
    else
      let w := ((G.find_edge cur vertex).map Edge.weight).getD 0
      if ltInf (addInf (dget dp.1 cur) w) (dget dp.1 vertex) then
        let distances := dset dp.1 vertex (addInf (dget dp.1 cur) w)
        let paths := if (pget dp.2 cur).length = 0
          then pset dp.2 cur [⟨cur, dget distances cur⟩] else dp.2
        let paths := pset paths vertex
          (pget paths cur ++ [⟨vertex, dget distances vertex⟩])
        (distances, paths)
      else dp

/-- `JKUMap._dijkstra` (lines 118–156), with fuel: mark `cur` visited,
relax all its neighbours, then recurse on the first unvisited vertex in
distance order (Python's stable `sorted`), returning the two maps when all
vertices are visited.  Each call visits a fresh vertex, so any fuel above
the vertex count is never exhausted. -/
def dijkstra (G : Graph) : Nat → String → List String → DRow → PRow → DRow × PRow
  | 0, _, _, distances, paths => (distances, paths)
  | fuel+1, cur, visited, distances, paths =>
    let visited2 := cur :: visited
    let dp := (G.get_adjacent_vertices cur).foldl (relax G cur visited2) (distances, paths)
    match (sortedByDist dp.1).find? (fun v => !(visited2.contains v)) with
    | some next => dijkstra G fuel next visited2 dp.1 dp.2
    | none => dp

/-- The 17 locations of `JKUMap._insert_jku_map`, in insertion order. -/
def locations : List String :=
  ["Spar", "LIT", "Porter", "Open Lab", "Bank", "KHG", "Parking", "Chat",
   "Bella Casa", "Teichwerk", "Library", "LUI", "SP1", "SP3", "Castle",
   "Papaya", "JKH"]

/-- The 19 undirected weighted edges of `JKUMap._insert_jku_map`. -/
def jku_edges : List (String × String × Nat) :=
  [("Open Lab", "Porter", 70), ("LIT", "Porter", 80), ("LIT", "Spar", 50),
   ("Spar", "Porter", 103), ("Bank", "Porter", 100), ("Spar", "KHG", 165),
   ("KHG", "Bank", 150), ("KHG", "Parking", 190), ("Parking", "Bella Casa", 145),
   ("Parking", "SP1", 240), ("SP1", "SP3", 130), ("SP1", "LUI", 175),
   ("Teichwerk", "LUI", 135), ("LUI", "Library", 90), ("LUI", "Chat", 240),
   ("Chat", "Library", 160), ("Chat", "Bank", 115), ("Papaya", "Castle", 85),
   ("Papaya", "JKH", 80)]

/-- `_insert_jku_map`: the populated campus graph. -/
def jkuGraph : Graph :=
  jku_edges.foldl (fun G e => G.insert_edge_by_vertex_names e.1 e.2.1 e.2.2)
    (locations.foldl Graph.insert_vertex Graph.empty)

/-- `_initialize_dijkstra`'s row of distances for one origin: 0 for the
origin itself, infinity for every other vertex. -/
def initDRow (G : Graph) (v : String) : DRow :=
  G.vertices.map (fun w => (w, if v ≠ w then none else some 0))

/-- `_initialize_dijkstra`'s row of paths for one origin: all empty. -/
def initPRow (G : Graph) : PRow :=
  G.vertices.map (fun w => (w, ([] : List Step)))

/-- One origin's fully computed `(distances, paths)` row. -/
def jkuRow (v : String) : DRow × PRow :=
  dijkstra jkuGraph (jkuGraph.vertices.length + 1) v [] (initDRow jkuGraph v)
    (initPRow jkuGraph)

/-- The state of a constructed `JKUMap`: the campus graph and the two
precomputed tables (outer dicts keyed by origin in vertex-insertion
order). -/
structure JKUMap where
  graph : Graph
  distances : List (String × DRow)
  paths : List (String × PRow)

/-- `JKUMap.__init__`: populate the fixed map, initialise both tables, and
run `_dijkstra` once per origin. -/
def mkJKUMap : JKUMap :=
  { graph := jkuGraph
    distances := jkuGraph.vertices.map (fun v => (v, (jkuRow v).1))
    paths := jkuGraph.vertices.map (fun v => (v, (jkuRow v).2)) }

/-- Python exception kinds the queries can raise: `ValueError` (the
spec's `InvalidArgument`) and `KeyError` (a failed dict lookup). -/
inductive PyError where
  | valueError : PyError
  | keyError : PyError
deriving DecidableEq, Repr

instance {e a : Type _} [DecidableEq e] [DecidableEq a] : DecidableEq (Except e a) :=
  fun x y =>
    match x, y with
    | Except.ok u, Except.ok v =>
      if h : u = v then isTrue (by rw [h]) else isFalse (fun hc => h (Except.ok.inj hc))
    | Except.ok _, Except.error _ => isFalse (fun hc => Except.noConfusion hc)
    | Except.error _, Except.ok _ => isFalse (fun hc => Except.noConfusion hc)
    | Except.error u, Except.error v =>
      if h : u = v then isTrue (by rw [h]) else isFalse (fun hc => h (Except.error.inj hc))

/-- `get_shortest_path_from_to` (lines 49–72).  Arguments are `Option`s so
that Python `None` is representable; a missing dict key raises
`KeyError`. Returns `none` (Python `None`) when the stored path is empty. -/
def get_shortest_path_from_to (M : JKUMap) (from_vertex to_vertex : Option String) :
    Except PyError (Option (List Step)) :=
  match from_vertex, to_vertex with
  | none, _ => Except.error PyError.valueError
  | some _, none => Except.error PyError.valueError
  | some f, some t2 =>
    if f = t2 then Except.error PyError.valueError
    else
      match List.lookup f M.paths with
      | none => Except.error PyError.keyError
      | some row =>
        match List.lookup t2 row with
        | none => Except.error PyError.keyError
        | some result => Except.ok (if result.length > 0 then some result else none)

/-- `get_shortest_distances_from` (lines 98–116): per vertex name, the
stored distance with the `-1` sentinel substituted for infinity. -/
def get_shortest_distances_from (M : JKUMap) (from_vertex : Option String) :
    Except PyError (List (String × Int)) :=
  match from_vertex with
  | none => Except.error PyError.valueError
  | some f =>
    match List.lookup f M.distances with
    | none => Except.error PyError.keyError
    | some row =>
      Except.ok (row.map (fun p => (p.1,
        match p.2 with
        | some d => (d : Int)
        | none => -1)))

/-- `get_steps_for_shortest_paths_from` (lines 74–96): per vertex name,
`len(paths[from][v]) - 1`.  (The comprehension iterates `self.vertices`
and looks `self.paths[from_vertex]` up inside the loop; with the map's 17
vertices this raises `KeyError` for an absent origin exactly as the
up-front lookup here does.) -/
def get_steps_for_shortest_paths_from (M : JKUMap) (from_vertex : Option String) :
    Except PyError (List (String × Int)) :=
  match from_vertex with
  | none => Except.error PyError.valueError
  | some f =>
    match List.lookup f M.paths with
    | none => Except.error PyError.keyError
    | some row =>
      Except.ok (M.graph.vertices.map (fun v => (v, ((pget row v).length : Int) - 1)))

/-! ### Claim-level checkers over the fixed map -/

/-- Consecutive pairs of a path's steps. -/
def consecPairs : List Step → List (Step × Step)
  | a :: b :: rest => (a, b) :: consecPairs (b :: rest)
  | _ => []

/-- The distance the `get_shortest_distances_from` query reports for `b`
from origin `a` (`none` when the query fails or lacks the key). -/
def reportedDist (M : JKUMap) (a b : String) : Option Int :=
  match get_shortest_distances_from M (some a) with
  | Except.ok l => List.lookup b l
  | Except.error _ => none

/-- The path-shape property claimed for a reachable ordered pair: the
query returns a path whose first step is the origin at covered distance 0,
whose last step's covered distance is the reported shortest distance, and
whose consecutive steps are joined by edges of the graph with weights
summing to that distance. -/
def pathSpecOk (M : JKUMap) (a b : String) : Bool :=
  match get_shortest_path_from_to M (some a) (some b), reportedDist M a b with
  | Except.ok (some steps), some d =>
    (match steps.head? with
     | some st => st.point == a && st.covered_distance == some (0 : Nat)
     | none => false)
    && (match steps.getLast? with
        | some st => st.covered_distance.map (fun n => (n : Int)) == some d
        | none => false)
    && (consecPairs steps).all (fun pq => (M.graph.find_edge pq.1.point pq.2.point).isSome)
    && ((consecPairs steps).foldl
          (fun acc pq =>
            acc + (((M.graph.find_edge pq.1.point pq.2.point).map Edge.weight).getD 0 : Int))
          0) == d
  | _, _ => false

/-- The self-row property of one vertex: stored distance to itself 0,
reported distance 0, and the stored path to itself. -/
def selfRowOk (M : JKUMap) (v : String) : Bool :=
  (match List.lookup v M.distances with
   | some row => dget row v == some 0
   | none => false)
  && (match get_shortest_distances_from M (some v) with
      | Except.ok l => List.lookup v l == some (0 : Int)
      | Except.error _ => false)
  && (match List.lookup v M.paths with
      | some row => pget row v == [Step.mk v (some 0)]
      | none => false)

/-- The two `-1` sentinels (step count and distance) agree for one ordered
pair. -/
def sentinelAgree (M : JKUMap) (v w : String) : Bool :=
  match get_steps_for_shortest_paths_from M (some v),
      get_shortest_distances_from M (some v) with
  | Except.ok steps, Except.ok dists =>
    (List.lookup w steps == some (-1 : Int)) == (List.lookup w dists == some (-1 : Int))
  | _, _ => false

/-- For one origin: the reported step count to itself is 0 and the stored
self-path is the singleton seeded during the first relaxation. -/
def originSelfOk (M : JKUMap) (v : String) : Bool :=
  (match get_steps_for_shortest_paths_from M (some v) with
   | Except.ok steps => List.lookup v steps == some (0 : Int)
   | Except.error _ => false)
  && (match List.lookup v M.paths with
     | some row => pget row v == [Step.mk v (some 0)]
     | none => false)

end JKU

namespace FF

/-! ### Basic lemmas about matrix reads and writes -/

theorem getD_set_list {α : Type _} (l : List α) (i j : Nat) (x d : α) :
    (l.set i x).getD j d = if i = j ∧ i < l.length then x else l.getD j d := by
  rcases Decidable.em (i = j) with h | h
  · subst h
    by_cases hi : i < l.length
    · simp [List.getD_eq_getElem?_getD, List.getElem?_set_self hi, hi]
    · simp [List.getD_eq_getElem?_getD, List.getElem?_set, hi,
        List.getElem?_eq_none (Nat.le_of_not_lt hi)]
  · simp [List.getD_eq_getElem?_getD, List.getElem?_set_ne h, h]

theorem length_setM (m : Mat) (i j : Nat) (x : Int) :
    (setM m i j x).length = m.length := List.length_set ..

theorem rowlen_setM (m : Mat) (i j : Nat) (x : Int) (u : Nat) :
    ((setM m i j x).getD u []).length = ((m.getD u []).length) := by
  unfold setM
  rw [getD_set_list]
  split
  · next h => rw [← h.1, List.length_set]
  · rfl

theorem inB_setM (m : Mat) (i j : Nat) (x : Int) (u v : Nat) :
    inB (setM m i j x) u v ↔ inB m u v := by
  unfold inB
  rw [length_setM, rowlen_setM]

theorem getM_setM (m : Mat) (i j : Nat) (x : Int) (u v : Nat) :
    getM (setM m i j x) u v =
      if i = u ∧ j = v ∧ inB m i j then x else getM m u v := by
  unfold setM getM inB
  rw [getD_set_list]
  by_cases hi : i = u
  · subst hi
    by_cases hil : i < m.length
    · rw [if_pos ⟨rfl, hil⟩, getD_set_list]
      by_cases hj : j = v
      · subst hj
        by_cases hjl : j < (m.getD i []).length
        · rw [if_pos ⟨rfl, hjl⟩, if_pos ⟨rfl, rfl, hil, hjl⟩]
        · rw [if_neg (fun h => hjl h.2), if_neg (fun h => hjl h.2.2.2)]
      · rw [if_neg (fun h => hj h.1), if_neg (fun h => hj h.2.1)]
    · rw [if_neg (fun h => hil h.2), if_neg (fun h => hil h.2.2.1)]
  · rw [if_neg (fun h => hi h.1), if_neg (fun h => hi h.1)]

theorem getM_setM_ne (m : Mat) (i j : Nat) (x : Int) (u v : Nat)
    (h : ¬(i = u ∧ j = v)) : getM (setM m i j x) u v = getM m u v := by
  rw [getM_setM]
  rcases Decidable.em (i = u) with hi | hi
  · rcases Decidable.em (j = v) with hj | hj
    · exact absurd ⟨hi, hj⟩ h
    · simp [hj]
  · simp [hi]

/-! ### Lemmas about the row-major index enumeration -/

theorem mem_idxPairs (m : Mat) (i j : Nat) :
    (i, j) ∈ idxPairs m ↔ inB m i j := by
  unfold idxPairs inB
  simp only [List.mem_flatMap, List.mem_map, List.mem_range, Prod.mk.injEq]
  constructor
  · rintro ⟨a, ha, b, hb, rfl, rfl⟩
    exact ⟨ha, hb⟩
  · rintro ⟨hi, hj⟩
    exact ⟨i, hi, j, hj, rfl, rfl⟩

theorem nodup_idxPairs (m : Mat) : (idxPairs m).Nodup := by
  unfold idxPairs
  rw [List.nodup_flatMap]
  refine ⟨fun i _ => (List.nodup_range _).map ?_, ?_⟩
  · intro a b h
    simpa using congrArg Prod.snd h
  · apply List.Pairwise.imp ?_ (List.nodup_range m.length)
    intro a b hab
    intro p hpa hpb
    simp only [List.mem_map, List.mem_range] at hpa hpb
    obtain ⟨x, _, rfl⟩ := hpa
    obtain ⟨y, _, hy⟩ := hpb
    exact hab (by simpa using congrArg Prod.fst hy.symm)

theorem cnt_nil (x : Nat × Nat) : cnt x [] = 0 := rfl

theorem cnt_cons (x a : Nat × Nat) (l : List (Nat × Nat)) :
    cnt x (a :: l) = cnt x l + if a = x then 1 else 0 := by
  unfold cnt
  rw [List.countP_cons]
  by_cases h : a = x <;> simp [h]

theorem cnt_eq_of_nodup (x : Nat × Nat) :
    ∀ l : List (Nat × Nat), l.Nodup → cnt x l = if x ∈ l then 1 else 0 := by
  intro l
  induction l with
  | nil => intro _; simp [cnt_nil]
  | cons a l ih =>
    intro hnd
    rw [List.nodup_cons] at hnd
    rw [cnt_cons, ih hnd.2]
    by_cases hax : a = x
    · subst hax
      simp [hnd.1]
    · by_cases hx : x ∈ l <;> simp [hax, hx, Ne.symm hax]

theorem cnt_idxPairs (m : Mat) (i j : Nat) :
    cnt (i, j) (idxPairs m) = if inB m i j then 1 else 0 := by
  rw [cnt_eq_of_nodup _ _ (nodup_idxPairs m)]
  by_cases h : inB m i j
  · rw [if_pos h, if_pos ((mem_idxPairs m i j).2 h)]
  · rw [if_neg h, if_neg (fun hm => h ((mem_idxPairs m i j).1 hm))]

theorem eqShape_refl (m : Mat) : eqShape m m := ⟨rfl, fun _ => rfl⟩

theorem eqShape_trans {a b c : Mat} (h1 : eqShape a b) (h2 : eqShape b c) :
    eqShape a c := ⟨h1.1.trans h2.1, fun i => (h1.2 i).trans (h2.2 i)⟩

theorem eqShape_setM (m : Mat) (i j : Nat) (x : Int) : eqShape (setM m i j x) m :=
  ⟨length_setM m i j x, fun u => rowlen_setM m i j x u⟩

theorem inB_of_eqShape {m g : Mat} (h : eqShape m g) (a b : Nat) :
    inB m a b ↔ inB g a b := by
  unfold inB
  rw [h.1, h.2 a]

theorem eqShape_residStep (lap : Mat) (f : Int) (res : Mat) (p : Nat × Nat) :
    eqShape (residStep lap f res p) res := by
  unfold residStep
  split
  · exact eqShape_trans (eqShape_setM _ _ _ _) (eqShape_setM _ _ _ _)
  · exact eqShape_refl res

theorem eqShape_flowStep (lap g : Mat) (f : Int) (cf : Mat) (p : Nat × Nat) :
    eqShape (flowStep lap g f cf p) cf := by
  unfold flowStep
  split
  · exact eqShape_setM _ _ _ _
  · split
    · exact eqShape_setM _ _ _ _
    · exact eqShape_refl cf

theorem eqShape_foldl_residStep (lap : Mat) (f : Int) :
    ∀ (pairs : List (Nat × Nat)) (res : Mat),
      eqShape (pairs.foldl (residStep lap f) res) res := by
  intro pairs
  induction pairs with
  | nil => exact fun res => eqShape_refl res
  | cons p rest ih =>
    intro res
    exact eqShape_trans (ih (residStep lap f res p)) (eqShape_residStep lap f res p)

theorem eqShape_foldl_flowStep (lap g : Mat) (f : Int) :
    ∀ (pairs : List (Nat × Nat)) (cf : Mat),
      eqShape (pairs.foldl (flowStep lap g f) cf) cf := by
  intro pairs
  induction pairs with
  | nil => exact fun cf => eqShape_refl cf
  | cons p rest ih =>
    intro cf
    exact eqShape_trans (ih (flowStep lap g f cf p)) (eqShape_flowStep lap g f cf p)

/-! ### Pointwise closed forms of the two update loops -/

theorem getM_residStep (lap : Mat) (f : Int) (res : Mat) (i j u v : Nat) :
    getM (residStep lap f res (i, j)) u v =
      getM res u v
        + (if i = u ∧ j = v ∧ getM lap i j = 1 ∧ inB res u v then -f else 0)
        + (if i = v ∧ j = u ∧ getM lap i j = 1 ∧ inB res u v then f else 0) := by
  unfold residStep
  by_cases hm : getM lap (i, j).1 (i, j).2 = 1
  case neg =>
    rw [if_neg hm]
    simp only at hm
    rw [if_neg (fun h => hm h.2.2.1), if_neg (fun h => hm h.2.2.1)]
    ring
  case pos =>
    rw [if_pos hm]
    simp only at hm ⊢
    simp only [getM_setM, inB_setM]
    by_cases h1 : i = u <;> by_cases h2 : j = v <;> by_cases h3 : i = v <;>
      by_cases h4 : j = u <;> by_cases hb : inB res u v <;>
        simp_all <;> ring

theorem getM_flowStep (lap g : Mat) (f : Int) (cf : Mat) (i j u v : Nat) :
    getM (flowStep lap g f cf (i, j)) u v =
      getM cf u v
        + (if i = u ∧ j = v ∧ getM lap i j = 1 ∧ getM g i j ≠ 0 ∧ inB cf u v then f else 0)
        - (if i = v ∧ j = u ∧ getM lap i j = 1 ∧ getM g i j = 0 ∧ inB cf u v then f else 0) := by
  unfold flowStep
  simp only
  by_cases hm : getM lap i j = 1 <;> by_cases hz : getM g i j = 0
  · rw [if_pos ⟨hm, hz⟩]
    simp only [getM_setM, inB_setM]
    by_cases h1 : i = u <;> by_cases h2 : j = v <;> by_cases h3 : i = v <;>
      by_cases h4 : j = u <;> by_cases hb : inB cf u v <;> simp_all <;> ring
  · rw [if_neg (fun h => hz h.2), if_pos hm]
    simp only [getM_setM, inB_setM]
    by_cases h1 : i = u <;> by_cases h2 : j = v <;> by_cases h3 : i = v <;>
      by_cases h4 : j = u <;> by_cases hb : inB cf u v <;> simp_all <;> ring
  · rw [if_neg (fun h => hm h.1), if_neg hm]
    rw [if_neg (fun h => hm h.2.2.1), if_neg (fun h => hm h.2.2.1)]
    ring
  · rw [if_neg (fun h => hm h.1), if_neg hm]
    rw [if_neg (fun h => hm h.2.2.1), if_neg (fun h => hm h.2.2.1)]
    ring

theorem getM_foldl_residStep (lap : Mat) (f : Int) (res0 : Mat) (u v : Nat) :
    ∀ (pairs : List (Nat × Nat)) (res : Mat), eqShape res res0 →
      getM (pairs.foldl (residStep lap f) res) u v =
        getM res u v
          + (if getM lap u v = 1 ∧ inB res0 u v then -f else 0) * cnt (u, v) pairs
          + (if getM lap v u = 1 ∧ inB res0 u v then f else 0) * cnt (v, u) pairs := by
  intro pairs
  induction pairs with
  | nil =>
    intro res _
    simp [cnt_nil]
  | cons p rest ih =>
    intro res hsh
    obtain ⟨i, j⟩ := p
    rw [List.foldl_cons, ih _ (eqShape_trans (eqShape_residStep lap f res (i, j)) hsh),
      getM_residStep, cnt_cons, cnt_cons]
    have hiB : inB res u v ↔ inB res0 u v := inB_of_eqShape hsh u v
    have e1 : (if i = u ∧ j = v ∧ getM lap i j = 1 ∧ inB res u v then -f else 0)
        = (if getM lap u v = 1 ∧ inB res0 u v then -f else 0)
            * (if (i, j) = (u, v) then 1 else 0) := by
      by_cases hp : i = u ∧ j = v
      · obtain ⟨rfl, rfl⟩ := hp
        by_cases hc1 : getM lap i j = 1
        · by_cases hb1 : inB res i j
          · rw [if_pos ⟨rfl, rfl, hc1, hb1⟩, if_pos rfl, if_pos ⟨hc1, hiB.1 hb1⟩, mul_one]
          · rw [if_neg (fun h => hb1 h.2.2.2), if_pos rfl,
              if_neg (fun h => hb1 (hiB.2 h.2)), mul_one]
        · rw [if_neg (fun h => hc1 h.2.2.1), if_pos rfl, if_neg (fun h => hc1 h.1), mul_one]
      · rw [if_neg (fun h => hp ⟨h.1, h.2.1⟩),
          if_neg (fun h => hp ⟨congrArg Prod.fst h, congrArg Prod.snd h⟩), mul_zero]
    have e2 : (if i = v ∧ j = u ∧ getM lap i j = 1 ∧ inB res u v then f else 0)
        = (if getM lap v u = 1 ∧ inB res0 u v then f else 0)
            * (if (i, j) = (v, u) then 1 else 0) := by
      by_cases hp : i = v ∧ j = u
      · obtain ⟨rfl, rfl⟩ := hp
        by_cases hc1 : getM lap i j = 1
        · by_cases hb1 : inB res j i
          · rw [if_pos ⟨rfl, rfl, hc1, hb1⟩, if_pos rfl, if_pos ⟨hc1, hiB.1 hb1⟩, mul_one]
          · rw [if_neg (fun h => hb1 h.2.2.2), if_pos rfl,
              if_neg (fun h => hb1 (hiB.2 h.2)), mul_one]
        · rw [if_neg (fun h => hc1 h.2.2.1), if_pos rfl, if_neg (fun h => hc1 h.1), mul_one]
      · rw [if_neg (fun h => hp ⟨h.1, h.2.1⟩),
          if_neg (fun h => hp ⟨congrArg Prod.fst h, congrArg Prod.snd h⟩), mul_zero]
    rw [e1, e2]
    ring

theorem getM_foldl_flowStep (lap g : Mat) (f : Int) (cf0 : Mat) (u v : Nat) :
    ∀ (pairs : List (Nat × Nat)) (cf : Mat), eqShape cf cf0 →
      getM (pairs.foldl (flowStep lap g f) cf) u v =
        getM cf u v
          + (if getM lap u v = 1 ∧ getM g u v ≠ 0 ∧ inB cf0 u v then f else 0) * cnt (u, v) pairs
          - (if getM lap v u = 1 ∧ getM g v u = 0 ∧ inB cf0 u v then f else 0) * cnt (v, u) pairs := by
  intro pairs
  induction pairs with
  | nil =>
    intro cf _
    simp [cnt_nil]
  | cons p rest ih =>
    intro cf hsh
    obtain ⟨i, j⟩ := p
    rw [List.foldl_cons, ih _ (eqShape_trans (eqShape_flowStep lap g f cf (i, j)) hsh),
      getM_flowStep, cnt_cons, cnt_cons]
    have hiB : inB cf u v ↔ inB cf0 u v := inB_of_eqShape hsh u v
    have e1 : (if i = u ∧ j = v ∧ getM lap i j = 1 ∧ getM g i j ≠ 0 ∧ inB cf u v then f else 0)
        = (if getM lap u v = 1 ∧ getM g u v ≠ 0 ∧ inB cf0 u v then f else 0)
            * (if (i, j) = (u, v) then 1 else 0) := by
      by_cases hp : i = u ∧ j = v
      · obtain ⟨rfl, rfl⟩ := hp
        by_cases hc1 : getM lap i j = 1
        · by_cases hz1 : getM g i j = 0
          · rw [if_neg (fun h => h.2.2.2.1 hz1), if_pos rfl,
              if_neg (fun h => h.2.1 hz1), mul_one]
          · by_cases hb1 : inB cf i j
            · rw [if_pos ⟨rfl, rfl, hc1, hz1, hb1⟩, if_pos rfl,
                if_pos ⟨hc1, hz1, hiB.1 hb1⟩, mul_one]
            · rw [if_neg (fun h => hb1 h.2.2.2.2), if_pos rfl,
                if_neg (fun h => hb1 (hiB.2 h.2.2)), mul_one]
        · rw [if_neg (fun h => hc1 h.2.2.1), if_pos rfl, if_neg (fun h => hc1 h.1), mul_one]
      · rw [if_neg (fun h => hp ⟨h.1, h.2.1⟩),
          if_neg (fun h => hp ⟨congrArg Prod.fst h, congrArg Prod.snd h⟩), mul_zero]
    have e2 : (if i = v ∧ j = u ∧ getM lap i j = 1 ∧ getM g i j = 0 ∧ inB cf u v then f else 0)
        = (if getM lap v u = 1 ∧ getM g v u = 0 ∧ inB cf0 u v then f else 0)
            * (if (i, j) = (v, u) then 1 else 0) := by
      by_cases hp : i = v ∧ j = u
      · obtain ⟨rfl, rfl⟩ := hp
        by_cases hc1 : getM lap i j = 1
        · by_cases hz1 : getM g i j = 0
          · by_cases hb1 : inB cf j i
            · rw [if_pos ⟨rfl, rfl, hc1, hz1, hb1⟩, if_pos rfl,
                if_pos ⟨hc1, hz1, hiB.1 hb1⟩, mul_one]
            · rw [if_neg (fun h => hb1 h.2.2.2.2), if_pos rfl,
                if_neg (fun h => hb1 (hiB.2 h.2.2)), mul_one]
          · rw [if_neg (fun h => hz1 h.2.2.2.1), if_pos rfl,
              if_neg (fun h => hz1 h.2.1), mul_one]
        · rw [if_neg (fun h => hc1 h.2.2.1), if_pos rfl, if_neg (fun h => hc1 h.1), mul_one]
      · rw [if_neg (fun h => hp ⟨h.1, h.2.1⟩),
          if_neg (fun h => hp ⟨congrArg Prod.fst h, congrArg Prod.snd h⟩), mul_zero]
    rw [e1, e2]
    ring

/-- Closed form of the residual-update loop: each cell loses the bottleneck
if it is marked and gains it if its transpose cell is marked. -/
theorem getM_updateResidual (lap : Mat) (f : Int) (res : Mat) (u v : Nat) :
    getM (updateResidual lap f res) u v =
      getM res u v
        + (if getM lap u v = 1 ∧ inB res u v then -f else 0)
        + (if getM lap v u = 1 ∧ inB res u v ∧ inB res v u then f else 0) := by
  unfold updateResidual
  rw [getM_foldl_residStep lap f res u v (idxPairs res) res (eqShape_refl res),
    cnt_idxPairs, cnt_idxPairs]
  have e1 : (if getM lap u v = 1 ∧ inB res u v then -f else 0)
        * (if inB res u v then 1 else 0)
      = (if getM lap u v = 1 ∧ inB res u v then -f else 0) := by
    by_cases hb : inB res u v
    · rw [if_pos hb, mul_one]
    · rw [if_neg hb, mul_zero, if_neg (fun h => hb h.2)]
  have e2 : (if getM lap v u = 1 ∧ inB res u v then f else 0)
        * (if inB res v u then 1 else 0)
      = (if getM lap v u = 1 ∧ inB res u v ∧ inB res v u then f else 0) := by
    by_cases hb2 : inB res v u
    · rw [if_pos hb2, mul_one]
      by_cases hc : getM lap v u = 1 ∧ inB res u v
      · rw [if_pos hc, if_pos ⟨hc.1, hc.2, hb2⟩]
      · rw [if_neg hc, if_neg (fun h => hc ⟨h.1, h.2.1⟩)]
    · rw [if_neg hb2, mul_zero, if_neg (fun h => hb2 h.2.2)]
  rw [e1, e2]

/-- Closed form of the flow-update loop: a marked forward cell gains the
bottleneck, and a cell whose transpose is a marked backward (zero-capacity)
cell loses it. -/
theorem getM_updateFlow (lap g : Mat) (f : Int) (cf : Mat) (hsh : eqShape cf g) (u v : Nat) :
    getM (updateFlow lap g f cf) u v =
      getM cf u v
        + (if getM lap u v = 1 ∧ getM g u v ≠ 0 ∧ inB g u v then f else 0)
        - (if getM lap v u = 1 ∧ getM g v u = 0 ∧ inB g u v ∧ inB g v u then f else 0) := by
  unfold updateFlow
  rw [getM_foldl_flowStep lap g f g u v (idxPairs g) cf hsh,
    cnt_idxPairs, cnt_idxPairs]
  have e1 : (if getM lap u v = 1 ∧ getM g u v ≠ 0 ∧ inB g u v then f else 0)
        * (if inB g u v then 1 else 0)
      = (if getM lap u v = 1 ∧ getM g u v ≠ 0 ∧ inB g u v then f else 0) := by
    by_cases hb : inB g u v
    · rw [if_pos hb, mul_one]
    · rw [if_neg hb, mul_zero, if_neg (fun h => hb h.2.2)]
  have e2 : (if getM lap v u = 1 ∧ getM g v u = 0 ∧ inB g u v then f else 0)
        * (if inB g v u then 1 else 0)
      = (if getM lap v u = 1 ∧ getM g v u = 0 ∧ inB g u v ∧ inB g v u then f else 0) := by
    by_cases hb2 : inB g v u
    · rw [if_pos hb2, mul_one]
      by_cases hc : getM lap v u = 1 ∧ getM g v u = 0 ∧ inB g u v
      · rw [if_pos hc, if_pos ⟨hc.1, hc.2.1, hc.2.2, hb2⟩]
      · rw [if_neg hc, if_neg (fun h => hc ⟨h.1, h.2.1, h.2.2.1⟩)]
    · rw [if_neg hb2, mul_zero, if_neg (fun h => hb2 h.2.2.2)]
  rw [e1, e2]

theorem getD_mem_of_lt {α : Type _} (l : List α) (i : Nat) (d : α) (h : i < l.length) :
    l.getD i d ∈ l := by
  rw [List.getD_eq_getElem?_getD, List.getElem?_eq_getElem h]
  exact List.getElem_mem h

theorem squareP_of_isSquare {g : Mat} (h : isSquare g = true) : SquareP g := by
  intro i hi
  unfold isSquare at h
  rw [List.all_eq_true] at h
  have := h (g.getD i []) (getD_mem_of_lt g i [] hi)
  simpa using this

theorem getM_of_not_inB {g : Mat} {u v : Nat} (h : ¬ inB g u v) : getM g u v = 0 := by
  unfold getM
  by_cases hu : u < g.length
  · have hv : ¬ v < (g.getD u []).length := fun hv => h ⟨hu, hv⟩
    rw [List.getD_eq_getElem?_getD (g.getD u []),
      List.getElem?_eq_none (Nat.le_of_not_lt hv)]
    rfl
  · rw [List.getD_eq_getElem?_getD g, List.getElem?_eq_none (Nat.le_of_not_lt hu)]
    rfl

theorem nonnegP_of_isNonneg {g : Mat} (h : isNonneg g = true) : NonnegP g := by
  intro u v
  by_cases hb : inB g u v
  · unfold isNonneg at h
    rw [List.all_eq_true] at h
    have hrow := h (g.getD u []) (getD_mem_of_lt g u [] hb.1)
    rw [List.all_eq_true] at hrow
    have hel := hrow ((g.getD u []).getD v 0) (getD_mem_of_lt (g.getD u []) v 0 hb.2)
    exact of_decide_eq_true hel
  · rw [getM_of_not_inB hb]

theorem noAntiP_of_noAntiparallel {g : Mat} (h : noAntiparallel g = true) : NoAntiP g := by
  intro u v
  by_cases hb : inB g u v
  · unfold noAntiparallel at h
    rw [List.all_eq_true] at h
    have := h (u, v) ((mem_idxPairs g u v).2 hb)
    rcases Bool.or_eq_true_iff.1 this with h1 | h1
    · exact Or.inl (by simpa using h1)
    · exact Or.inr (by simpa using h1)
  · exact Or.inl (getM_of_not_inB hb)

theorem inB_iff_lt {g : Mat} (hsq : SquareP g) (u v : Nat) :
    inB g u v ↔ u < g.length ∧ v < g.length := by
  unfold inB
  constructor
  · intro h
    exact ⟨h.1, (hsq u h.1) ▸ h.2⟩
  · intro h
    exact ⟨h.1, (hsq u h.1).symm ▸ h.2⟩

theorem getM_zerosLike (g : Mat) (u v : Nat) : getM (zerosLike g) u v = 0 := by
  unfold zerosLike getM
  simp only [List.getD_eq_getElem?_getD, List.getElem?_map]
  cases hrow : g[u]? with
  | none => rfl
  | some row =>
    cases hel : row[v]? with
    | none => simp [List.getElem?_map, hel]
    | some x => simp [List.getElem?_map, hel]

theorem eqShape_zerosLike (g : Mat) : eqShape (zerosLike g) g := by
  constructor
  · exact List.length_map g _
  · intro i
    unfold zerosLike
    rw [List.getD_eq_getElem?_getD, List.getElem?_map,
      List.getD_eq_getElem?_getD g]
    cases hrow : g[i]? with
    | none => rfl
    | some row => simp

/-! ### Component equations for a single `ff_step` -/

theorem bfsOuter_none_snd (res : Mat) (source sink : Nat) :
    ∀ (fuel : Nat) (queue : List Nat) (visited : List Bool)
      (parents : List (Option Nat)) (lap : Mat),
      (bfsOuter res source sink fuel queue visited parents lap).1 = none →
      (bfsOuter res source sink fuel queue visited parents lap).2 = lap := by
  intro fuel
  induction fuel with
  | zero => intro queue visited parents lap _; rfl
  | succ fuel ih =>
    intro queue visited parents lap h
    cases queue with
    | nil => rfl
    | cons vertex rest =>
      rw [bfsOuter] at h ⊢
      cases hI : bfsInner res source sink vertex (res.getD vertex []) 0 visited rest parents lap with
      | inl st =>
        obtain ⟨v2, q2, p2⟩ := st
        rw [hI] at h
        exact ih q2 v2 p2 lap h
      | inr st =>
        obtain ⟨p2, lap2⟩ := st
        rw [hI] at h
        exact Option.noConfusion h

theorem bfs_none_snd (G : Graph) (s t : Nat) (h : (G.bfs s t).1 = none) :
    (G.bfs s t).2 = zerosLike G.graph := by
  unfold Graph.bfs at h ⊢
  exact bfsOuter_none_snd _ _ _ _ _ _ _ _ h

theorem ff_step_of_none (G : Graph) (s t : Nat) (h : (G.bfs s t).1 = none) :
    G.ff_step s t = (0, { G with latest_augmenting_path := zerosLike G.graph }) := by
  unfold Graph.ff_step
  simp only [h, bfs_none_snd G s t h]

theorem ff_step_of_some (G : Graph) (s t : Nat) (ps : List (Option Nat))
    (h : (G.bfs s t).1 = some ps) :
    G.ff_step s t =
      (((updateFlow (G.bfs s t).2 G.graph
            ((bottleneck (G.bfs s t).2 G.residual_graph).getD 0) G.current_flow).getD s []).sum
          - (G.current_flow.getD s []).sum,
       { graph := G.graph
         residual_graph := updateResidual (G.bfs s t).2
           ((bottleneck (G.bfs s t).2 G.residual_graph).getD 0) G.residual_graph
         latest_augmenting_path := (G.bfs s t).2
         current_flow := updateFlow (G.bfs s t).2 G.graph
           ((bottleneck (G.bfs s t).2 G.residual_graph).getD 0) G.current_flow }) := by
  unfold Graph.ff_step
  simp only [h]

theorem eqShape_updateResidual (lap : Mat) (f : Int) (res : Mat) :
    eqShape (updateResidual lap f res) res := by
  unfold updateResidual
  exact eqShape_foldl_residStep lap f _ res

theorem eqShape_updateFlow (lap g : Mat) (f : Int) (cf : Mat) :
    eqShape (updateFlow lap g f cf) cf := by
  unfold updateFlow
  exact eqShape_foldl_flowStep lap g f _ cf

theorem ff_step_graph (G : Graph) (s t : Nat) : (G.ff_step s t).2.graph = G.graph := by
  cases hr : (G.bfs s t).1 with
  | none => rw [ff_step_of_none G s t hr]
  | some ps => rw [ff_step_of_some G s t ps hr]

theorem runCalls_graph (calls : List (Nat × Nat)) :
    ∀ G : Graph, (runCalls G calls).graph = G.graph := by
  induction calls with
  | nil => intro G; rfl
  | cons c rest ih =>
    intro G
    rw [runCalls, ih, ff_step_graph]

theorem ff_step_resid_shape {g : Mat} (G : Graph) (s t : Nat)
    (h : eqShape G.residual_graph g) :
    eqShape (G.ff_step s t).2.residual_graph g := by
  cases hr : (G.bfs s t).1 with
  | none => rw [ff_step_of_none G s t hr]; exact h
  | some ps =>
    rw [ff_step_of_some G s t ps hr]
    exact eqShape_trans (eqShape_updateResidual _ _ _) h

/-- The two symmetric residual updates of one augmentation cancel in the
pairwise sum `residual[u][v] + residual[v][u]`. -/
theorem ff_step_pairsum {g : Mat} (hsq : SquareP g) (G : Graph) (s t : Nat)
    (hsh : eqShape G.residual_graph g)
    (h2 : ∀ u v, getM G.residual_graph u v + getM G.residual_graph v u
      = getM g u v + getM g v u) :
    ∀ u v, getM (G.ff_step s t).2.residual_graph u v
        + getM (G.ff_step s t).2.residual_graph v u = getM g u v + getM g v u := by
  intro u v
  cases hr : (G.bfs s t).1 with
  | none => rw [ff_step_of_none G s t hr]; exact h2 u v
  | some ps =>
    rw [ff_step_of_some G s t ps hr]
    show getM (updateResidual _ _ _) u v + getM (updateResidual _ _ _) v u = _
    rw [getM_updateResidual, getM_updateResidual]
    have hBuv : inB G.residual_graph u v ↔ u < g.length ∧ v < g.length := by
      rw [inB_of_eqShape hsh, inB_iff_lt hsq]
    have hBvu : inB G.residual_graph v u ↔ v < g.length ∧ u < g.length := by
      rw [inB_of_eqShape hsh, inB_iff_lt hsq]
    simp only [hBuv, hBvu]
    by_cases h1 : getM (G.bfs s t).2 u v = 1 <;>
      by_cases h3 : getM (G.bfs s t).2 v u = 1 <;>
        by_cases ha : u < g.length <;> by_cases hb : v < g.length <;>
          simp [h1, h3, ha, hb] <;> linarith [h2 u v]

theorem runCalls_resid_inv {g : Mat} (hsq : SquareP g) :
    ∀ (calls : List (Nat × Nat)) (G : Graph),
      eqShape G.residual_graph g →
      (∀ u v, getM G.residual_graph u v + getM G.residual_graph v u
        = getM g u v + getM g v u) →
      eqShape (runCalls G calls).residual_graph g ∧
        ∀ u v, getM (runCalls G calls).residual_graph u v
            + getM (runCalls G calls).residual_graph v u
            = getM g u v + getM g v u := by
  intro calls
  induction calls with
  | nil => intro G h1 h2; exact ⟨h1, h2⟩
  | cons c rest ih =>
    intro G h1 h2
    rw [runCalls]
    exact ih _ (ff_step_resid_shape G c.1 c.2 h1) (ff_step_pairsum hsq G c.1 c.2 h1 h2)

/-! ### Bottleneck lemmas -/

theorem bott_fold_le_acc (lap res : Mat) :
    ∀ (pairs : List (Nat × Nat)) (m0 : Int),
      ∃ m', pairs.foldl (bottStep lap res) (some m0) = some m' ∧ m' ≤ m0 := by
  intro pairs
  induction pairs with
  | nil => intro m0; exact ⟨m0, rfl, le_refl m0⟩
  | cons p rest ih =>
    intro m0
    rw [List.foldl_cons]
    unfold bottStep
    by_cases hm : getM lap p.1 p.2 = 1
    · rw [if_pos hm]
      obtain ⟨m', hfold, hle⟩ := ih (min m0 (getM res p.1 p.2))
      exact ⟨m', hfold, le_trans hle (min_le_left _ _)⟩
    · rw [if_neg hm]
      exact ih m0

theorem bott_fold_marked (lap res : Mat) (i j : Nat) (hmark : getM lap i j = 1) :
    ∀ (pairs : List (Nat × Nat)) (acc : Option Int), (i, j) ∈ pairs →
      ∃ m, pairs.foldl (bottStep lap res) acc = some m ∧ m ≤ getM res i j := by
  intro pairs
  induction pairs with
  | nil => intro acc h; cases h
  | cons p rest ih =>
    intro acc hmem
    rw [List.foldl_cons]
    rcases List.mem_cons.1 hmem with heq | hmem2
    · subst heq
      show ∃ m, rest.foldl (bottStep lap res) (bottStep lap res acc (i, j)) = some m
        ∧ m ≤ getM res i j
      unfold bottStep
      rw [if_pos hmark]
      cases acc with
      | none =>
        obtain ⟨m', hfold, hle⟩ := bott_fold_le_acc lap res rest (getM res i j)
        exact ⟨m', hfold, hle⟩
      | some m0 =>
        obtain ⟨m', hfold, hle⟩ := bott_fold_le_acc lap res rest (min m0 (getM res i j))
        exact ⟨m', hfold, le_trans hle (min_le_right _ _)⟩
    · exact ih (bottStep lap res acc p) hmem2

theorem bott_fold_nonneg (lap res : Mat) (hres : ∀ u v, 0 ≤ getM res u v) :
    ∀ (pairs : List (Nat × Nat)) (acc : Option Int),
      (∀ m0, acc = some m0 → 0 ≤ m0) →
      ∀ m, pairs.foldl (bottStep lap res) acc = some m → 0 ≤ m := by
  intro pairs
  induction pairs with
  | nil => intro acc hacc m hm; exact hacc m hm
  | cons p rest ih =>
    intro acc hacc m hm
    rw [List.foldl_cons] at hm
    refine ih (bottStep lap res acc p) ?_ m hm
    intro m0 hm0
    unfold bottStep at hm0
    by_cases hmk : getM lap p.1 p.2 = 1
    · rw [if_pos hmk] at hm0
      cases acc with
      | none =>
        obtain rfl : getM res p.1 p.2 = m0 := Option.some.inj hm0
        exact hres p.1 p.2
      | some a =>
        obtain rfl : min a (getM res p.1 p.2) = m0 := Option.some.inj hm0
        exact le_min (hacc a rfl) (hres p.1 p.2)
    · rw [if_neg hmk] at hm0
      exact hacc m0 hm0

theorem bottleneck_getD_nonneg (lap res : Mat) (hres : ∀ u v, 0 ≤ getM res u v) :
    0 ≤ (bottleneck lap res).getD 0 := by
  cases hbt : bottleneck lap res with
  | none => exact le_refl 0
  | some m =>
    unfold bottleneck at hbt
    exact bott_fold_nonneg lap res hres (idxPairs lap) none (fun _ h => Option.noConfusion h)
      m hbt

theorem bottleneck_le_of_marked (lap res : Mat) (u v : Nat)
    (hm : getM lap u v = 1) (hb : inB lap u v) :
    ∃ m, bottleneck lap res = some m ∧ m ≤ getM res u v := by
  unfold bottleneck
  exact bott_fold_marked lap res u v hm (idxPairs lap) none ((mem_idxPairs lap u v).2 hb)

/-! ### The shape of the path matrix produced by BFS -/

theorem eqShape_markPath (parents : List (Option Nat)) :
    ∀ (fuel : Nat) (lap : Mat) (parent idx : Nat),
      eqShape (markPath parents fuel lap parent idx).1 lap := by
  intro fuel
  induction fuel with
  | zero => intro lap parent idx; exact eqShape_refl lap
  | succ fuel ih =>
    intro lap parent idx
    rw [markPath]
    cases parents.getD parent none with
    | none => exact eqShape_setM lap parent idx 1
    | some pp =>
      exact eqShape_trans (ih (setM lap parent idx 1) pp parent)
        (eqShape_setM lap parent idx 1)

theorem bfsInner_inr_shape (res : Mat) (source sink vertex : Nat) :
    ∀ (row : List Int) (j : Nat) (visited : List Bool) (queue : List Nat)
      (parents : List (Option Nat)) (lap : Mat) (p2 : List (Option Nat)) (lap2 : Mat),
      bfsInner res source sink vertex row j visited queue parents lap = Sum.inr (p2, lap2) →
      eqShape lap2 lap := by
  intro row
  induction row with
  | nil =>
    intro j visited queue parents lap p2 lap2 h
    exact Sum.noConfusion h
  | cons nb rest ih =>
    intro j visited queue parents lap p2 lap2 h
    rw [bfsInner] at h
    by_cases hg : visited.getD j false = false ∧ nb ≠ 0
    · rw [if_pos hg] at h
      by_cases hs : j = sink
      · rw [if_pos hs] at h
        simp only at h
        obtain ⟨-, h2⟩ := Prod.mk.injEq .. ▸ (Sum.inr.inj h)
        rw [← h2]
        exact eqShape_trans
          (eqShape_setM _ source _ 1)
          (eqShape_markPath _ _ lap _ sink)
      · rw [if_neg hs] at h
        exact ih (j+1) _ _ _ lap p2 lap2 h
    · rw [if_neg hg] at h
      exact ih (j+1) _ _ _ lap p2 lap2 h

theorem bfsOuter_snd_shape (res : Mat) (source sink : Nat) :
    ∀ (fuel : Nat) (queue : List Nat) (visited : List Bool)
      (parents : List (Option Nat)) (lap : Mat),
      eqShape (bfsOuter res source sink fuel queue visited parents lap).2 lap := by
  intro fuel
  induction fuel with
  | zero => intro queue visited parents lap; exact eqShape_refl lap
  | succ fuel ih =>
    intro queue visited parents lap
    cases queue with
    | nil => exact eqShape_refl lap
    | cons vertex rest =>
      rw [bfsOuter]
      cases hI : bfsInner res source sink vertex (res.getD vertex []) 0 visited rest parents lap with
      | inl st =>
        obtain ⟨v2, q2, p2⟩ := st
        exact ih q2 v2 p2 lap
      | inr st =>
        obtain ⟨p2, lap2⟩ := st
        exact bfsInner_inr_shape res source sink vertex _ 0 visited rest parents lap p2 lap2 hI

theorem bfs_snd_shape (G : Graph) (s t : Nat) : eqShape (G.bfs s t).2 G.graph := by
  unfold Graph.bfs
  exact eqShape_trans (bfsOuter_snd_shape _ _ _ _ _ _ _ _) (eqShape_zerosLike G.graph)

theorem flowInv_init (g : Mat) (hnn : NonnegP g) : FlowInv g (Graph.init g) := by
  refine ⟨rfl, eqShape_refl g, eqShape_zerosLike g, ?_, ?_, ?_⟩
  · intro u v
    show getM g u v = getM g u v - getM (zerosLike g) u v + getM (zerosLike g) v u
    rw [getM_zerosLike, getM_zerosLike]
    ring
  · intro u v
    exact hnn u v
  · intro u v
    intro _
    show getM (zerosLike g) u v ≤ 0
    rw [getM_zerosLike]

set_option maxHeartbeats 2000000 in
theorem ff_step_flowInv {g : Mat} (hsq : SquareP g)
    (G : Graph) (s t : Nat) (h : FlowInv g G) : FlowInv g (G.ff_step s t).2 := by
  obtain ⟨hg, hshr, hshc, hinv, hpos, hneg⟩ := h
  cases hr : (G.bfs s t).1 with
  | none =>
    rw [ff_step_of_none G s t hr]
    exact ⟨hg, hshr, hshc, hinv, hpos, hneg⟩
  | some ps =>
    rw [ff_step_of_some G s t ps hr]
    have hlapsh : eqShape (G.bfs s t).2 g := hg ▸ bfs_snd_shape G s t
    have hf0 : 0 ≤ (bottleneck (G.bfs s t).2 G.residual_graph).getD 0 :=
      bottleneck_getD_nonneg _ _ hpos
    have hBr : ∀ a b, inB G.residual_graph a b ↔ a < g.length ∧ b < g.length := by
      intro a b
      rw [inB_of_eqShape hshr, inB_iff_lt hsq]
    have hBg : ∀ a b, inB g a b ↔ a < g.length ∧ b < g.length := fun a b => inB_iff_lt hsq a b
    have hshc2 : eqShape G.current_flow G.graph := by rw [hg]; exact hshc
    have hBl : ∀ a b, inB (G.bfs s t).2 a b ↔ a < g.length ∧ b < g.length := by
      intro a b
      rw [inB_of_eqShape hlapsh, inB_iff_lt hsq]
    have hfle : ∀ a b, getM (G.bfs s t).2 a b = 1 → a < g.length → b < g.length →
        (bottleneck (G.bfs s t).2 G.residual_graph).getD 0 ≤ getM G.residual_graph a b := by
      intro a b hm ha hb
      obtain ⟨m, hbt, hle⟩ := bottleneck_le_of_marked (G.bfs s t).2 G.residual_graph a b hm
        ((hBl a b).2 ⟨ha, hb⟩)
      rw [hbt]
      exact hle
    refine ⟨hg, ?_, ?_, ?_, ?_, ?_⟩
    · exact eqShape_trans (eqShape_updateResidual _ _ _) hshr
    · exact eqShape_trans (eqShape_updateFlow _ _ _ _) hshc
    · intro u v
      rw [getM_updateResidual, getM_updateFlow _ _ _ _ hshc2,
        getM_updateFlow _ _ _ _ hshc2, hg]
      simp only [hBr, hBg]
      have h2 := hinv u v
      by_cases e1 : getM (G.bfs s t).2 u v = 1 <;>
        by_cases e2 : getM (G.bfs s t).2 v u = 1 <;>
          by_cases e3 : getM g u v = 0 <;> by_cases e4 : getM g v u = 0 <;>
            by_cases ha : u < g.length <;> by_cases hb : v < g.length <;>
              simp [e1, e2, e3, e4, ha, hb] <;> linarith [hinv u v]
    · intro u v
      rw [getM_updateResidual]
      simp only [hBr]
      by_cases e1 : getM (G.bfs s t).2 u v = 1 <;>
        by_cases e2 : getM (G.bfs s t).2 v u = 1 <;>
          by_cases ha : u < g.length <;> by_cases hb : v < g.length <;>
            simp [e1, e2, ha, hb] <;>
              first
                | linarith [hpos u v, hf0]
                | linarith [hpos u v, hfle u v e1 ha hb]
    · intro u v hz
      rw [getM_updateFlow _ _ _ _ hshc2, hg]
      simp only [hBg]
      have h5 := hneg u v hz
      by_cases e1 : getM (G.bfs s t).2 u v = 1 <;>
        by_cases e2 : getM (G.bfs s t).2 v u = 1 <;>
          by_cases e4 : getM g v u = 0 <;>
            by_cases ha : u < g.length <;> by_cases hb : v < g.length <;>
              simp [e1, e2, e4, ha, hb, hz] <;> linarith

theorem runCalls_flowInv {g : Mat} (hsq : SquareP g) :
    ∀ (calls : List (Nat × Nat)) (G : Graph), FlowInv g G →
      FlowInv g (runCalls G calls) := by
  intro calls
  induction calls with
  | nil => intro G h; exact h
  | cons c rest ih =>
    intro G h
    rw [runCalls]
    exact ih _ (ff_step_flowInv hsq G c.1 c.2 h)

theorem flowInv_flow_le {g : Mat} (hna : NoAntiP g) {G : Graph}
    (h : FlowInv g G) : ∀ u v, getM G.current_flow u v ≤ getM g u v := by
  intro u v
  obtain ⟨-, -, -, hinv, hpos, hneg⟩ := h
  by_cases hz : getM g u v = 0
  · rw [hz]
    exact hneg u v hz
  · have hg0 : getM g v u = 0 := (hna u v).resolve_left hz
    have h5 := hneg v u hg0
    have h2 := hinv u v
    have h3 := hpos u v
    linarith

theorem good_mono (parents : List (Option Nat)) (s : Nat) :
    ∀ k v, good parents s k v → good parents s (k + 1) v := by
  intro k
  induction k with
  | zero => intro v h; exact Or.inl h
  | succ k ih =>
    intro v h
    rcases h with h | ⟨u, hu, hg⟩
    · exact Or.inl h
    · exact Or.inr ⟨u, hu, ih u hg⟩

theorem good_set_fresh {parents : List (Option Nat)} {s w : Nat} {x : Option Nat}
    (hw : parents.getD w none = none) :
    ∀ k v, good parents s k v → good (parents.set w x) s k v := by
  intro k
  induction k with
  | zero => intro v h; exact h
  | succ k ih =>
    intro v h
    rcases h with h | ⟨u, hu, hg⟩
    · exact Or.inl h
    · refine Or.inr ⟨u, ?_, ih u hg⟩
      rw [getD_set_list]
      have hvw : ¬(w = v ∧ w < parents.length) := by
        rintro ⟨rfl, -⟩
        rw [hw] at hu
        exact Option.noConfusion hu
      rw [if_neg hvw]
      exact hu

theorem getD_eq_getElem_of_lt {α : Type _} (l : List α) (i : Nat) (d : α)
    (h : i < l.length) : l.getD i d = l[i] := by
  rw [List.getD_eq_getElem?_getD, List.getElem?_eq_getElem h]
  rfl

theorem count_set_true (visited : List Bool) (w : Nat)
    (hw : visited.getD w false = false) (hlt : w < visited.length) :
    (visited.set w true).count true = visited.count true + 1 := by
  rw [List.count_set true true visited w hlt]
  have : visited[w] = false := by
    rw [← getD_eq_getElem_of_lt visited w false hlt]
    exact hw
  rw [this]
  rfl

/-- Marking a freshly discovered vertex `w` (reached from the dequeued
visited `vertex` over a nonzero residual edge) preserves the BFS
invariant. -/
theorem bfsInv_step {res : Mat} {s : Nat} {visited : List Bool}
    {parents : List (Option Nat)} (inv : BfsInv res s visited parents)
    (vertex w : Nat) (hvtx : visited.getD vertex false = true)
    (hvlt : vertex < res.length) (hw : visited.getD w false = false)
    (hwlt : w < res.length) (hres : getM res vertex w ≠ 0) :
    BfsInv res s (visited.set w true) (parents.set w (some vertex)) := by
  have hws : w ≠ s := by
    intro he
    rw [he, inv.src_vis] at hw
    exact Bool.noConfusion hw
  have hwv : w ≠ vertex := by
    intro he
    rw [he, hvtx] at hw
    exact Bool.noConfusion hw
  have hpw : parents.getD w none = none := by
    cases hc : parents.getD w none with
    | none => rfl
    | some u =>
      have := (inv.entries w u hc).2.2.2.2.1
      rw [this] at hw
      exact Bool.noConfusion hw
  have hwp : w < parents.length := inv.pl ▸ hwlt
  have hwvl : w < visited.length := inv.vl ▸ hwlt
  have hgetp : (parents.set w (some vertex)).getD w none = some vertex := by
    rw [getD_set_list, if_pos ⟨rfl, hwp⟩]
  have hgetp_ne : ∀ v, v ≠ w → (parents.set w (some vertex)).getD v none
      = parents.getD v none := by
    intro v hv
    rw [getD_set_list, if_neg (fun hc => hv hc.1.symm)]
  have hvis_mono : ∀ x, visited.getD x false = true →
      (visited.set w true).getD x false = true := by
    intro x hx
    rw [getD_set_list]
    split
    · rfl
    · exact hx
  have hvis_w : (visited.set w true).getD w false = true := by
    rw [getD_set_list, if_pos ⟨rfl, hwvl⟩]
  have hvis_inv : ∀ x, (visited.set w true).getD x false = true →
      x = w ∨ visited.getD x false = true := by
    intro x hx
    by_cases hxw : x = w
    · exact Or.inl hxw
    · right
      rw [getD_set_list, if_neg (fun hc => hxw hc.1.symm)] at hx
      exact hx
  have hcnt : (visited.set w true).count true = visited.count true + 1 :=
    count_set_true visited w hw hwvl
  refine ⟨?_, ?_, ?_, ?_, ?_, ?_, ?_⟩
  · rw [List.length_set]; exact inv.pl
  · rw [List.length_set]; exact inv.vl
  · rw [hgetp_ne s (fun h => hws h.symm)]; exact inv.src_none
  · exact hvis_mono s inv.src_vis
  · intro v u hvu
    by_cases hvw : v = w
    · subst hvw
      rw [hgetp] at hvu
      obtain rfl : vertex = u := Option.some.inj hvu
      exact ⟨hws, hwlt, hvlt, hres, hvis_w, hvis_mono vertex hvtx⟩
    · rw [hgetp_ne v hvw] at hvu
      obtain ⟨h1, h2, h3, h4, h5, h6⟩ := inv.entries v u hvu
      exact ⟨h1, h2, h3, h4, hvis_mono v h5, hvis_mono u h6⟩
  · intro v hv
    by_cases hvw : v = w
    · subst hvw
      right
      rw [hgetp]
      exact fun h => Option.noConfusion h
    · rcases hvis_inv v hv with h | h
      · exact absurd h hvw
      · rcases inv.vis_par v h with h2 | h2
        · exact Or.inl h2
        · right
          rw [hgetp_ne v hvw]
          exact h2
  · intro v hv
    rw [hcnt]
    rcases hvis_inv v hv with rfl | h
    · exact Or.inr ⟨vertex, hgetp, good_set_fresh hpw _ vertex (inv.graded vertex hvtx)⟩
    · exact good_mono _ s _ v (good_set_fresh hpw _ v (inv.graded v h))

/-- Correctness of the parent-pointer walk: it terminates within the fuel,
never touches column `s` of the path matrix, writes exactly one new cell in
row `s` (at the returned final index, a non-source in-range vertex whose
parent is the source), and every cell it marks is a parent edge. -/
theorem markPath_spec (res : Mat) (s : Nat) (parents : List (Option Nat))
    (hsq : SquareP res) (hs : s < res.length)
    (hsrc : parents.getD s none = none)
    (hent : ∀ v u, parents.getD v none = some u →
      v ≠ s ∧ v < res.length ∧ u < res.length ∧ getM res u v ≠ 0) :
    ∀ (k fuel : Nat) (lap : Mat) (parent idx : Nat),
      good parents s k parent → k < fuel →
      parents.getD idx none = some parent →
      eqShape lap res →
      (∀ x, getM (markPath parents fuel lap parent idx).1 x s = getM lap x s) ∧
      ((markPath parents fuel lap parent idx).2 < res.length ∧
        (markPath parents fuel lap parent idx).2 ≠ s ∧
        getM (markPath parents fuel lap parent idx).1 s
          (markPath parents fuel lap parent idx).2 = 1 ∧
        (∀ x, x ≠ (markPath parents fuel lap parent idx).2 →
          getM (markPath parents fuel lap parent idx).1 s x = getM lap s x)) ∧
      (∀ a b, getM (markPath parents fuel lap parent idx).1 a b = 1 →
        getM lap a b = 1 ∨ parents.getD b none = some a) := by
  intro k
  induction k with
  | zero =>
    intro fuel lap parent idx hg hkf hpidx hsh
    have hps : parent = s := hg
    rw [hps] at hpidx ⊢
    cases fuel with
    | zero => exact absurd hkf (by omega)
    | succ f =>
      rw [markPath]
      rw [hsrc]
      simp only
      obtain ⟨hidxne, hidxlt, -, -⟩ := hent idx s hpidx
      have hbound : inB lap s idx := by
        rw [inB_of_eqShape hsh, inB_iff_lt hsq]
        exact ⟨hs, hidxlt⟩
      refine ⟨?_, ⟨hidxlt, hidxne, ?_, ?_⟩, ?_⟩
      · intro x
        exact getM_setM_ne lap s idx 1 x s (fun hc => hidxne hc.2)
      · rw [getM_setM, if_pos ⟨rfl, rfl, hbound⟩]
      · intro x hx
        exact getM_setM_ne lap s idx 1 s x (fun hc => hx hc.2.symm)
      · intro a b hab
        rw [getM_setM] at hab
        by_cases hc : s = a ∧ idx = b ∧ inB lap s idx
        · right
          rw [← hc.1, ← hc.2.1]
          exact hpidx
        · rw [if_neg hc] at hab
          exact Or.inl hab
  | succ k ih =>
    intro fuel lap parent idx hg hkf hpidx hsh
    cases fuel with
    | zero => exact absurd hkf (by omega)
    | succ f =>
      rw [markPath]
      obtain ⟨hidxne, hidxlt, hplt, -⟩ := hent idx parent hpidx
      cases hpp : parents.getD parent none with
      | none =>
        simp only
        have hps : parent = s := by
          rcases hg with h | ⟨u, hu, -⟩
          · exact h
          · rw [hpp] at hu
            exact Option.noConfusion hu
        rw [hps] at hpidx ⊢
        have hbound : inB lap s idx := by
          rw [inB_of_eqShape hsh, inB_iff_lt hsq]
          exact ⟨hs, hidxlt⟩
        refine ⟨?_, ⟨hidxlt, hidxne, ?_, ?_⟩, ?_⟩
        · intro x
          exact getM_setM_ne lap s idx 1 x s (fun hc => hidxne hc.2)
        · rw [getM_setM, if_pos ⟨rfl, rfl, hbound⟩]
        · intro x hx
          exact getM_setM_ne lap s idx 1 s x (fun hc => hx hc.2.symm)
        · intro a b hab
          rw [getM_setM] at hab
          by_cases hc : s = a ∧ idx = b ∧ inB lap s idx
          · right
            rw [← hc.1, ← hc.2.1]
            exact hpidx
          · rw [if_neg hc] at hab
            exact Or.inl hab
      | some pp =>
        simp only
        have hpns : parent ≠ s := by
          intro he
          rw [he, hsrc] at hpp
          exact Option.noConfusion hpp
        have hgu : good parents s k pp := by
          rcases hg with h | ⟨u, hu, hgu⟩
          · exact absurd h hpns
          · rw [hpp] at hu
            obtain rfl : pp = u := Option.some.inj hu
            exact hgu
        have hsh2 : eqShape (setM lap parent idx 1) res :=
          eqShape_trans (eqShape_setM lap parent idx 1) hsh
        obtain ⟨ha, ⟨hb1, hb2, hb3, hb4⟩, hc⟩ :=
          ih f (setM lap parent idx 1) pp parent hgu (by omega) hpp hsh2
        refine ⟨?_, ⟨hb1, hb2, hb3, ?_⟩, ?_⟩
        · intro x
          rw [ha x]
          exact getM_setM_ne lap parent idx 1 x s (fun hcc => hidxne hcc.2)
        · intro x hx
          rw [hb4 x hx]
          exact getM_setM_ne lap parent idx 1 s x (fun hcc => hpns hcc.1)
        · intro a b hab
          rcases hc a b hab with h1 | h1
          · rw [getM_setM] at h1
            by_cases hcc : parent = a ∧ idx = b ∧ inB lap parent idx
            · right
              rw [← hcc.1, ← hcc.2.1]
              exact hpidx
            · rw [if_neg hcc] at h1
              exact Or.inl h1
          · exact Or.inr h1

/-- Correctness of one row scan of `_bfs`: on `Sum.inl` the BFS invariant
and queue property are preserved; on `Sum.inr` (sink discovered) the
produced path matrix leaves column `s` untouched, marks exactly one new
cell in row `s`, and marks only cells with nonzero residual capacity. -/
theorem bfsInner_spec (res : Mat) (s t vertex : Nat) (hsq : SquareP res)
    (hs : s < res.length) :
    ∀ (row : List Int) (j : Nat) (visited : List Bool) (queue : List Nat)
      (parents : List (Option Nat)) (lap : Mat),
      BfsInv res s visited parents →
      (∀ x ∈ queue, visited.getD x false = true ∧ x < res.length) →
      visited.getD vertex false = true → vertex < res.length →
      (∀ k, k < row.length → row.getD k 0 = getM res vertex (j + k)) →
      j + row.length = (res.getD vertex []).length →
      eqShape lap res →
      (∀ st, bfsInner res s t vertex row j visited queue parents lap = Sum.inl st →
        BfsInv res s st.1 st.2.2 ∧ ∀ x ∈ st.2.1, st.1.getD x false = true ∧ x < res.length) ∧
      (∀ p2 lap2, bfsInner res s t vertex row j visited queue parents lap = Sum.inr (p2, lap2) →
        (∀ x, getM lap2 x s = getM lap x s) ∧
        (∃ x0, x0 < res.length ∧ x0 ≠ s ∧ getM lap2 s x0 = 1 ∧
          ∀ x, x ≠ x0 → getM lap2 s x = getM lap s x) ∧
        (∀ a b, getM lap2 a b = 1 → getM lap a b = 1 ∨ getM res a b ≠ 0)) := by
  intro row
  induction row with
  | nil =>
    intro j visited queue parents lap inv hq hvtx hvlt hrow hlen hlap
    constructor
    · intro st hst
      rw [bfsInner] at hst
      obtain rfl : (visited, queue, parents) = st := Sum.inl.inj hst
      exact ⟨inv, hq⟩
    · intro p2 lap2 hst
      rw [bfsInner] at hst
      exact Sum.noConfusion hst
  | cons nb rest ih =>
    intro j visited queue parents lap inv hq hvtx hvlt hrow hlen hlap
    by_cases hg1 : visited.getD j false = false ∧ nb ≠ 0
    · -- the neighbour j is newly discovered
      have hjlt : j < res.length := by
        have h1 : (res.getD vertex []).length = res.length := hsq vertex hvlt
        simp only [List.length_cons] at hlen
        omega
      have hres0 : getM res vertex j ≠ 0 := by
        have h0 := hrow 0 (by simp)
        simp only [List.getD_cons_zero, Nat.add_zero] at h0
        rw [← h0]
        exact hg1.2
      have inv2 : BfsInv res s (visited.set j true) (parents.set j (some vertex)) :=
        bfsInv_step inv vertex j hvtx hvlt hg1.1 hjlt hres0
      have hjs2 : j ≠ s := by
        intro he
        rw [he, inv.src_vis] at hg1
        exact Bool.noConfusion hg1.1
      have hvisj : (visited.set j true).getD j false = true := by
        rw [getD_set_list, if_pos ⟨rfl, inv.vl ▸ hjlt⟩]
      have hvis_mono : ∀ x, visited.getD x false = true →
          (visited.set j true).getD x false = true := by
        intro x hx
        rw [getD_set_list]
        split
        · rfl
        · exact hx
      have hq2 : ∀ x ∈ queue ++ [j], (visited.set j true).getD x false = true
          ∧ x < res.length := by
        intro x hx
        rcases List.mem_append.1 hx with hx | hx
        · exact ⟨hvis_mono x (hq x hx).1, (hq x hx).2⟩
        · obtain rfl : x = j := List.mem_singleton.1 hx
          exact ⟨hvisj, hjlt⟩
      have hrow2 : ∀ k, k < rest.length → rest.getD k 0 = getM res vertex (j + 1 + k) := by
        intro k hk
        have h2 := hrow (k + 1) (by simp only [List.length_cons]; omega)
        simp only [List.getD_cons_succ] at h2
        rw [h2]
        congr 1
        omega
      have hlen2 : j + 1 + rest.length = (res.getD vertex []).length := by
        simp only [List.length_cons] at hlen
        omega
      have hpj : (parents.set j (some vertex)).getD j none = some vertex := by
        rw [getD_set_list, if_pos ⟨rfl, inv.pl ▸ hjlt⟩]
      by_cases hjs : j = t
      · -- sink reached: the reconstruction runs
        constructor
        · intro st hst
          rw [bfsInner, if_pos hg1, if_pos hjs] at hst
          exact Sum.noConfusion hst
        · intro p2 lap2 hst
          rw [bfsInner, if_pos hg1, if_pos hjs] at hst
          obtain ⟨-, hlap2⟩ := Prod.mk.injEq .. ▸ Sum.inr.inj hst
          rw [← hjs] at hlap2
          have hp0 : ((parents.set j (some vertex)).getD j none).getD 0 = vertex := by
            rw [hpj]
            rfl
          rw [hp0] at hlap2
          -- extract the graded chain for the discovered sink
          have hgood := inv2.graded j hvisj
          have hcnt_le : (visited.set j true).count true ≤ res.length := by
            have h3 := List.count_le_length (l := visited.set j true) (a := true)
            rw [List.length_set, inv.vl] at h3
            exact h3
          obtain ⟨k, hk_eq⟩ : ∃ k, (visited.set j true).count true = k + 1 := by
            cases hcc : (visited.set j true).count true with
            | zero =>
              rw [hcc] at hgood
              exact absurd hgood hjs2
            | succ k => exact ⟨k, rfl⟩
          rw [hk_eq] at hgood
          have hgv : good (parents.set j (some vertex)) s k vertex := by
            rcases hgood with h | ⟨u, hu, hgu⟩
            · exact absurd h hjs2
            · rw [hpj] at hu
              obtain rfl : vertex = u := Option.some.inj hu
              exact hgu
          have hent2 : ∀ v u, (parents.set j (some vertex)).getD v none = some u →
              v ≠ s ∧ v < res.length ∧ u < res.length ∧ getM res u v ≠ 0 := by
            intro v u hvu
            obtain ⟨h1, h2, h3, h4, -, -⟩ := inv2.entries v u hvu
            exact ⟨h1, h2, h3, h4⟩
          have hkf : k < res.length + 1 := by omega
          obtain ⟨ha, ⟨hb1, hb2, hb3, hb4⟩, hc⟩ :=
            markPath_spec res s (parents.set j (some vertex)) hsq hs inv2.src_none hent2
              k (res.length + 1) lap vertex j hgv hkf hpj hlap
          have hshr1 : eqShape (markPath (parents.set j (some vertex)) (res.length + 1)
              lap vertex j).1 res :=
            eqShape_trans (eqShape_markPath _ _ lap vertex j) hlap
          have hbound2 : inB (markPath (parents.set j (some vertex)) (res.length + 1)
              lap vertex j).1 s (markPath (parents.set j (some vertex)) (res.length + 1)
              lap vertex j).2 := by
            rw [inB_of_eqShape hshr1, inB_iff_lt hsq]
            exact ⟨hs, hb1⟩
          have hmarks : ∀ a2 b2, getM (markPath (parents.set j (some vertex))
              (res.length + 1) lap vertex j).1 a2 b2 = 1 →
              getM lap a2 b2 = 1 ∨ getM res a2 b2 ≠ 0 := by
            intro a2 b2 hm
            rcases hc a2 b2 hm with h1 | h1
            · exact Or.inl h1
            · exact Or.inr (hent2 b2 a2 h1).2.2.2
          rw [← hlap2]
          refine ⟨?_, ⟨_, hb1, hb2, ?_, ?_⟩, ?_⟩
          · intro x
            rw [getM_setM_ne _ s _ 1 x s (fun hcc => hb2 hcc.2)]
            exact ha x
          · rw [getM_setM, if_pos ⟨rfl, rfl, hbound2⟩]
          · intro x hx
            rw [getM_setM_ne _ s _ 1 s x (fun hcc => hx hcc.2.symm)]
            exact hb4 x hx
          · intro a b hab
            rw [getM_setM] at hab
            split at hab
            next hcc =>
              obtain ⟨rfl, rfl, -⟩ := hcc
              exact hmarks _ _ hb3
            next => exact hmarks _ _ hab
      · -- not the sink: continue the scan with the updated state
        have hres2 := ih (j + 1) (visited.set j true) (queue ++ [j])
          (parents.set j (some vertex)) lap inv2 hq2 (hvis_mono vertex hvtx) hvlt
          hrow2 hlen2 hlap
        constructor
        · intro st hst
          rw [bfsInner, if_pos hg1, if_neg hjs] at hst
          exact hres2.1 st hst
        · intro p2 lap2 hst
          rw [bfsInner, if_pos hg1, if_neg hjs] at hst
          exact hres2.2 p2 lap2 hst
    · -- the neighbour is skipped
      have hrow2 : ∀ k, k < rest.length → rest.getD k 0 = getM res vertex (j + 1 + k) := by
        intro k hk
        have h2 := hrow (k + 1) (by simp only [List.length_cons]; omega)
        simp only [List.getD_cons_succ] at h2
        rw [h2]
        congr 1
        omega
      have hlen2 : j + 1 + rest.length = (res.getD vertex []).length := by
        simp only [List.length_cons] at hlen
        omega
      have hres2 := ih (j + 1) visited queue parents lap inv hq hvtx hvlt hrow2 hlen2 hlap
      constructor
      · intro st hst
        rw [bfsInner, if_neg hg1] at hst
        exact hres2.1 st hst
      · intro p2 lap2 hst
        rw [bfsInner, if_neg hg1] at hst
        exact hres2.2 p2 lap2 hst

theorem eqShape_symm {m g : Mat} (h : eqShape m g) : eqShape g m :=
  ⟨h.1.symm, fun i => (h.2 i).symm⟩

theorem squareP_of_eqShape {m g : Mat} (h : eqShape m g) (hsq : SquareP g) :
    SquareP m := by
  intro i hi
  rw [h.2 i, h.1, hsq i (h.1 ▸ hi)]

theorem good_self (p : List (Option Nat)) (s : Nat) : ∀ k, good p s k s := by
  intro k
  cases k with
  | zero => rfl
  | succ k => exact Or.inl rfl

theorem getD_replicate_none (n v : Nat) :
    (List.replicate n (none : Option Nat)).getD v none = none := by
  rw [List.getD_eq_getElem?_getD, List.getElem?_replicate]
  split
  · rfl
  · rfl

theorem getD_replicate_false (n v : Nat) :
    (List.replicate n false).getD v false = false := by
  rw [List.getD_eq_getElem?_getD, List.getElem?_replicate]
  split
  · rfl
  · rfl

/-- The initial `(visited, parents)` state of `_bfs` satisfies the BFS
invariant. -/
theorem bfsInv_initial (res : Mat) (s n : Nat) (hn : n = res.length) (hs : s < n) :
    BfsInv res s ((List.replicate n false).set s true) (List.replicate n none) := by
  have hvs : ((List.replicate n false).set s true).getD s false = true := by
    rw [getD_set_list, if_pos ⟨rfl, by rw [List.length_replicate]; exact hs⟩]
  have hvonly : ∀ v, ((List.replicate n false).set s true).getD v false = true → v = s := by
    intro v hv
    by_cases hvq : s = v
    · exact hvq.symm
    · rw [getD_set_list, if_neg (fun hc => hvq hc.1), getD_replicate_false] at hv
      exact Bool.noConfusion hv
  refine ⟨?_, ?_, ?_, hvs, ?_, ?_, ?_⟩
  · rw [List.length_replicate, hn]
  · rw [List.length_set, List.length_replicate, hn]
  · exact getD_replicate_none n s
  · intro v u hvu
    rw [getD_replicate_none] at hvu
    exact Option.noConfusion hvu
  · intro v hv
    exact Or.inl (hvonly v hv)
  · intro v hv
    obtain rfl : v = s := hvonly v hv
    exact good_self _ v _

/-- Correctness of the `while queue:` loop in the success case, relative to
the path matrix it was entered with. -/
theorem bfsOuter_spec (res : Mat) (s t : Nat) (hsq : SquareP res) (hs : s < res.length) :
    ∀ (fuel : Nat) (queue : List Nat) (visited : List Bool)
      (parents : List (Option Nat)) (lap : Mat),
      BfsInv res s visited parents →
      (∀ x ∈ queue, visited.getD x false = true ∧ x < res.length) →
      eqShape lap res →
      ∀ ps lap2, bfsOuter res s t fuel queue visited parents lap = (some ps, lap2) →
        (∀ x, getM lap2 x s = getM lap x s) ∧
        (∃ x0, x0 < res.length ∧ x0 ≠ s ∧ getM lap2 s x0 = 1 ∧
          ∀ x, x ≠ x0 → getM lap2 s x = getM lap s x) ∧
        (∀ a b, getM lap2 a b = 1 → getM lap a b = 1 ∨ getM res a b ≠ 0) := by
  intro fuel
  induction fuel with
  | zero =>
    intro queue visited parents lap inv hq hlap ps lap2 hst
    exact Option.noConfusion (congrArg Prod.fst hst)
  | succ fuel ih =>
    intro queue visited parents lap inv hq hlap ps lap2 hst
    cases queue with
    | nil => exact Option.noConfusion (congrArg Prod.fst hst)
    | cons vertex rest =>
      rw [bfsOuter] at hst
      have hvtx := hq vertex (List.mem_cons_self vertex rest)
      have hIS := bfsInner_spec res s t vertex hsq hs (res.getD vertex []) 0 visited rest
        parents lap inv (fun x hx => hq x (List.mem_cons_of_mem vertex hx)) hvtx.1 hvtx.2
        (fun k _ => by rw [Nat.zero_add]; rfl) (by rw [Nat.zero_add]) hlap
      cases hI : bfsInner res s t vertex (res.getD vertex []) 0 visited rest parents lap with
      | inl st =>
        obtain ⟨v2, q2, p2⟩ := st
        rw [hI] at hst
        obtain ⟨inv2, hq2⟩ := hIS.1 (v2, q2, p2) hI
        exact ih q2 v2 p2 lap inv2 hq2 hlap ps lap2 hst
      | inr st =>
        obtain ⟨p2, lap3⟩ := st
        rw [hI] at hst
        obtain ⟨-, hl⟩ := Prod.mk.injEq .. ▸ hst
        rw [← hl]
        exact hIS.2 p2 lap3 hI

/-- Correctness of a successful `_bfs` run: the produced
`latest_augmenting_path` has an all-zero column at the source, exactly one
marked cell in the source's row (a non-source in-range vertex), and every
marked cell sits on a nonzero residual edge. -/
theorem bfs_success_spec (G : Graph) (s t : Nat) (hsq : SquareP G.graph)
    (hshr : eqShape G.residual_graph G.graph) (hs : s < G.graph.length)
    (ps : List (Option Nat)) (h : (G.bfs s t).1 = some ps) :
    (∀ x, getM (G.bfs s t).2 x s = 0) ∧
    (∃ x0, x0 < G.graph.length ∧ x0 ≠ s ∧ getM (G.bfs s t).2 s x0 = 1 ∧
      ∀ x, x ≠ x0 → getM (G.bfs s t).2 s x = 0) ∧
    (∀ a b, getM (G.bfs s t).2 a b = 1 → getM G.residual_graph a b ≠ 0) := by
  have hsq2 : SquareP G.residual_graph := squareP_of_eqShape hshr hsq
  have hs2 : s < G.residual_graph.length := by rw [hshr.1]; exact hs
  have heq : G.bfs s t = (some ps, (G.bfs s t).2) := by
    rw [← h]
  have heq2 : bfsOuter G.residual_graph s t (G.graph.length + 1) [s]
      ((List.replicate G.graph.length false).set s true)
      (List.replicate G.graph.length none) (zerosLike G.graph)
      = (some ps, (G.bfs s t).2) := heq
  have hinv : BfsInv G.residual_graph s
      ((List.replicate G.graph.length false).set s true)
      (List.replicate G.graph.length none) :=
    bfsInv_initial G.residual_graph s G.graph.length hshr.1.symm hs
  have hq0 : ∀ x ∈ [s], ((List.replicate G.graph.length false).set s true).getD x false = true
      ∧ x < G.residual_graph.length := by
    intro x hx
    obtain rfl : x = s := List.mem_singleton.1 hx
    refine ⟨?_, hs2⟩
    rw [getD_set_list, if_pos ⟨rfl, by rw [List.length_replicate]; exact hs⟩]
  have hlap0 : eqShape (zerosLike G.graph) G.residual_graph :=
    eqShape_trans (eqShape_zerosLike G.graph) (eqShape_symm hshr)
  obtain ⟨ha, ⟨x0, hx1, hx2, hx3, hx4⟩, hc⟩ :=
    bfsOuter_spec G.residual_graph s t hsq2 hs2 (G.graph.length + 1) [s]
      ((List.replicate G.graph.length false).set s true)
      (List.replicate G.graph.length none) (zerosLike G.graph) hinv hq0 hlap0
      ps (G.bfs s t).2 heq2
  refine ⟨?_, ⟨x0, by rw [← hshr.1]; exact hx1, hx2, hx3, ?_⟩, ?_⟩
  · intro x
    rw [ha x, getM_zerosLike]
  · intro x hx
    rw [hx4 x hx, getM_zerosLike]
  · intro a b hab
    rcases hc a b hab with h1 | h1
    · rw [getM_zerosLike] at h1
      exact absurd h1 (by decide)
    · exact h1

/-! ### Row-sum lemmas for the returned outflow delta -/

theorem sum_sub_pointwise :
    ∀ (l2 l : List Int), l2.length = l.length →
      l2.sum - l.sum
        = ((List.range l.length).map (fun j => l2.getD j 0 - l.getD j 0)).sum := by
  intro l2
  induction l2 with
  | nil =>
    intro l h
    obtain rfl : l = [] := List.length_eq_zero.1 h.symm
    rfl
  | cons a2 l2t ih =>
    intro l h
    cases l with
    | nil => exact absurd h (by simp)
    | cons a lt =>
      have hlen : l2t.length = lt.length := by simpa using h
      rw [List.length_cons, List.range_succ_eq_map, List.map_cons, List.map_map]
      have hmap : (List.range lt.length).map
            ((fun j => (a2 :: l2t).getD j 0 - (a :: lt).getD j 0) ∘ Nat.succ)
          = (List.range lt.length).map (fun j => l2t.getD j 0 - lt.getD j 0) := rfl
      rw [hmap]
      simp only [List.sum_cons, List.getD_cons_zero]
      rw [← ih lt hlen]
      ring

theorem sum_map_range_congr (f1 f2 : Nat → Int) :
    ∀ n : Nat, (∀ j, j < n → f1 j = f2 j) →
      ((List.range n).map f1).sum = ((List.range n).map f2).sum := by
  intro n
  induction n with
  | zero => intro _; rfl
  | succ n ih =>
    intro h
    rw [List.range_succ, List.map_append, List.map_append, List.sum_append,
      List.sum_append, ih (fun j hj => h j (by omega))]
    simp [h n (by omega)]

theorem sum_map_ite_single (x0 : Nat) (f : Int) :
    ∀ n : Nat, x0 < n →
      ((List.range n).map (fun j => if j = x0 then f else 0)).sum = f := by
  intro n
  induction n with
  | zero => intro h; exact absurd h (by omega)
  | succ n ih =>
    intro h
    rw [List.range_succ, List.map_append, List.sum_append]
    by_cases hx : x0 < n
    · rw [ih hx]
      have hne : n ≠ x0 := by omega
      simp [hne]
    · have hx0 : x0 = n := by omega
      subst hx0
      have hz : ((List.range x0).map (fun j => if j = x0 then f else 0)).sum = 0 := by
        apply List.sum_eq_zero
        intro x hx2
        obtain ⟨j, hj, rfl⟩ := List.mem_map.1 hx2
        rw [List.mem_range] at hj
        rw [if_neg (by omega)]
      rw [hz]
      simp

theorem sourceInv_init (g : Mat) (s : Nat) (hnn : NonnegP g) :
    SourceInv g s (Graph.init g) := by
  refine ⟨flowInv_init g hnn, ?_, ?_⟩
  · intro x
    show (0 : Int) ≤ getM (zerosLike g) s x
    rw [getM_zerosLike]
  · intro x
    show getM (zerosLike g) x s ≤ 0
    rw [getM_zerosLike]

theorem ff_step_sourceInv {g : Mat} (hsq : SquareP g) (G : Graph) (s t : Nat)
    (hs : s < g.length) (h : SourceInv g s G) : SourceInv g s (G.ff_step s t).2 := by
  obtain ⟨hfi, h6, h7⟩ := h
  refine ⟨ff_step_flowInv hsq G s t hfi, ?_⟩
  obtain ⟨hg, hshr, hshc, hinv, hpos, hneg⟩ := hfi
  cases hr : (G.bfs s t).1 with
  | none =>
    rw [ff_step_of_none G s t hr]
    exact ⟨h6, h7⟩
  | some ps =>
    rw [ff_step_of_some G s t ps hr]
    have hsq2 : SquareP G.graph := by rw [hg]; exact hsq
    have hshr2 : eqShape G.residual_graph G.graph := by rw [hg]; exact hshr
    have hs2 : s < G.graph.length := by rw [hg]; exact hs
    have hshc2 : eqShape G.current_flow G.graph := by rw [hg]; exact hshc
    obtain ⟨hcol, ⟨x0, hx1, hx2, hx3, hx4⟩, hmk⟩ := bfs_success_spec G s t hsq2 hshr2 hs2 ps hr
    have hf0 : 0 ≤ (bottleneck (G.bfs s t).2 G.residual_graph).getD 0 :=
      bottleneck_getD_nonneg _ _ hpos
    constructor
    · intro x
      show (0 : Int) ≤ getM (updateFlow (G.bfs s t).2 G.graph _ G.current_flow) s x
      rw [getM_updateFlow _ _ _ _ hshc2]
      have hc2 : ¬(getM (G.bfs s t).2 x s = 1 ∧ getM G.graph x s = 0
          ∧ inB G.graph s x ∧ inB G.graph x s) := by
        intro hcc
        rw [hcol x] at hcc
        exact absurd hcc.1 (by decide)
      rw [if_neg hc2]
      by_cases hc1 : getM (G.bfs s t).2 s x = 1 ∧ getM G.graph s x ≠ 0 ∧ inB G.graph s x
      · rw [if_pos hc1]
        linarith [h6 x]
      · rw [if_neg hc1]
        linarith [h6 x]
    · intro x
      show getM (updateFlow (G.bfs s t).2 G.graph _ G.current_flow) x s ≤ 0
      rw [getM_updateFlow _ _ _ _ hshc2]
      have hc1 : ¬(getM (G.bfs s t).2 x s = 1 ∧ getM G.graph x s ≠ 0
          ∧ inB G.graph x s) := by
        intro hcc
        rw [hcol x] at hcc
        exact absurd hcc.1 (by decide)
      rw [if_neg hc1]
      by_cases hc2 : getM (G.bfs s t).2 s x = 1 ∧ getM G.graph s x = 0
          ∧ inB G.graph x s ∧ inB G.graph s x
      · rw [if_pos hc2]
        linarith [h7 x]
      · rw [if_neg hc2]
        linarith [h7 x]

theorem runCalls_sourceInv {g : Mat} (hsq : SquareP g) (s : Nat) (hs : s < g.length) :
    ∀ (sinks : List Nat) (G : Graph), SourceInv g s G →
      SourceInv g s (runCalls G (sinks.map (fun t2 => (s, t2)))) := by
  intro sinks
  induction sinks with
  | nil => exact fun G h => h
  | cons t rest ih =>
    intro G h
    rw [List.map_cons, runCalls]
    exact ih _ (ff_step_sourceInv hsq G s t hs h)

/-- In a same-source reachable state, a successful `ff_step` returns
exactly the bottleneck of the discovered augmenting path: the change of
the source row sum of `current_flow` equals the minimum marked residual
capacity. -/
theorem ff_step_fst_eq_bottleneck {g : Mat} (hsq : SquareP g) (G : Graph) (s t : Nat)
    (hs : s < g.length) (hSI : SourceInv g s G) (ps : List (Option Nat))
    (hr : (G.bfs s t).1 = some ps) :
    bottleneck ((G.ff_step s t).2.latest_augmenting_path) G.residual_graph
      = some ((G.ff_step s t).1) := by
  obtain ⟨hfi, h6, h7⟩ := hSI
  obtain ⟨hg, hshr, hshc, hinv, hpos, hneg⟩ := hfi
  have hsq2 : SquareP G.graph := by rw [hg]; exact hsq
  have hshr2 : eqShape G.residual_graph G.graph := by rw [hg]; exact hshr
  have hs2 : s < G.graph.length := by rw [hg]; exact hs
  have hshc2 : eqShape G.current_flow G.graph := by rw [hg]; exact hshc
  obtain ⟨hcol, ⟨x0, hx1, hx2, hx3, hx4⟩, hmk⟩ := bfs_success_spec G s t hsq2 hshr2 hs2 ps hr
  have hlapsh : eqShape (G.bfs s t).2 G.graph := bfs_snd_shape G s t
  have hbound : inB (G.bfs s t).2 s x0 := by
    rw [inB_of_eqShape hlapsh, inB_iff_lt hsq2]
    exact ⟨hs2, hx1⟩
  obtain ⟨m, hbtm, -⟩ :=
    bottleneck_le_of_marked (G.bfs s t).2 G.residual_graph s x0 hx3 hbound
  have hgsx0 : getM G.graph s x0 ≠ 0 := by
    intro hz
    have h2 := hinv s x0
    have hzg : getM g s x0 = 0 := by rw [← hg]; exact hz
    rw [hzg] at h2
    exact hmk s x0 hx3 (by linarith [h6 x0, h7 x0, hpos s x0])
  have hlap_eq : (G.ff_step s t).2.latest_augmenting_path = (G.bfs s t).2 := by
    rw [ff_step_of_some G s t ps hr]
  have hfst : (G.ff_step s t).1
      = ((updateFlow (G.bfs s t).2 G.graph
            ((bottleneck (G.bfs s t).2 G.residual_graph).getD 0) G.current_flow).getD s []).sum
        - (G.current_flow.getD s []).sum := by
    rw [ff_step_of_some G s t ps hr]
  have hf : (bottleneck (G.bfs s t).2 G.residual_graph).getD 0 = m := by
    rw [hbtm]
    rfl
  rw [hlap_eq, hfst, hf, hbtm]
  congr 1
  have hsh3 : eqShape (updateFlow (G.bfs s t).2 G.graph m G.current_flow) G.current_flow :=
    eqShape_updateFlow _ _ _ _
  have hlen0 : ((updateFlow (G.bfs s t).2 G.graph m G.current_flow).getD s []).length
      = (G.current_flow.getD s []).length := hsh3.2 s
  have hrowlen : (G.current_flow.getD s []).length = g.length := by
    rw [hshc.2 s]
    exact hsq s hs
  have hsum := sum_sub_pointwise
    ((updateFlow (G.bfs s t).2 G.graph m G.current_flow).getD s [])
    (G.current_flow.getD s []) hlen0
  have hpt : ∀ j, j < (G.current_flow.getD s []).length →
      ((updateFlow (G.bfs s t).2 G.graph m G.current_flow).getD s []).getD j 0
          - (G.current_flow.getD s []).getD j 0
        = (if j = x0 then m else 0) := by
    intro j hj
    show getM (updateFlow (G.bfs s t).2 G.graph m G.current_flow) s j
        - getM G.current_flow s j = _
    rw [getM_updateFlow _ _ _ _ hshc2]
    have hc2 : ¬(getM (G.bfs s t).2 j s = 1 ∧ getM G.graph j s = 0
        ∧ inB G.graph s j ∧ inB G.graph j s) := by
      intro hcc
      rw [hcol j] at hcc
      exact absurd hcc.1 (by decide)
    rw [if_neg hc2]
    by_cases hjx : j = x0
    · subst hjx
      have hcond : getM (G.bfs s t).2 s j = 1 ∧ getM G.graph s j ≠ 0 ∧ inB G.graph s j :=
        ⟨hx3, hgsx0, (inB_iff_lt hsq2 s j).2 ⟨hs2, hx1⟩⟩
      rw [if_pos hcond, if_pos rfl]
      ring
    · have hlz : getM (G.bfs s t).2 s j = 0 := hx4 j hjx
      have hcond : ¬(getM (G.bfs s t).2 s j = 1 ∧ getM G.graph s j ≠ 0
          ∧ inB G.graph s j) := by
        intro hcc
        rw [hlz] at hcc
        exact absurd hcc.1 (by decide)
      rw [if_neg hcond, if_neg hjx]
      ring
  rw [hsum,
    sum_map_range_congr
      (fun j => ((updateFlow (G.bfs s t).2 G.graph m G.current_flow).getD s []).getD j 0
        - (G.current_flow.getD s []).getD j 0)
      (fun j => if j = x0 then m else 0) (G.current_flow.getD s []).length hpt,
    hrowlen,
    sum_map_ite_single x0 m g.length (by rw [← hg]; exact hx1)]

theorem ford_fulkerson_of_zero (G : Graph) (s t : Nat)
    (h : (G.ff_step s t).1 = 0) : ∀ fuel, G.ford_fulkerson s t fuel = 0 := by
  intro fuel
  cases fuel with
  | zero => rfl
  | succ fuel => simp [Graph.ford_fulkerson, h]

theorem ford_fulkerson_of_ne (G : Graph) (s t : Nat)
    (h : (G.ff_step s t).1 ≠ 0) (fuel : Nat) :
    G.ford_fulkerson s t (fuel + 1)
      = (G.ff_step s t).1 + (G.ff_step s t).2.ford_fulkerson s t fuel := by
  simp [Graph.ford_fulkerson, h]

/-- C1: on the classic 6-vertex textbook network the Ford–Fulkerson driver
(run with any fuel at least its actual number of iterations, here 4)
returns a maximum flow of 23 from vertex 0 to vertex 5. -/
theorem C1_classic_network_max_flow_23 (fuel : Nat) (h : 4 ≤ fuel) :
    (Graph.init classicMat).ford_fulkerson 0 5 fuel = 23 := by
  obtain ⟨m, rfl⟩ : ∃ m, fuel = m + 4 := ⟨fuel - 4, by omega⟩
  have e1 : ((Graph.init classicMat).ff_step 0 5).1 = 12 := by decide
  have e2 : (((Graph.init classicMat).ff_step 0 5).2.ff_step 0 5).1 = 4 := by decide
  have e3 : ((((Graph.init classicMat).ff_step 0 5).2.ff_step 0 5).2.ff_step 0 5).1 = 7 := by
    decide
  have e4 :
      (((((Graph.init classicMat).ff_step 0 5).2.ff_step 0 5).2.ff_step 0 5).2.ff_step 0 5).1
        = 0 := by decide
  rw [show m + 4 = (m + 3) + 1 from rfl,
    ford_fulkerson_of_ne _ 0 5 (by rw [e1]; decide) (m + 3), e1,
    show m + 3 = (m + 2) + 1 from rfl,
    ford_fulkerson_of_ne _ 0 5 (by rw [e2]; decide) (m + 2), e2,
    show m + 2 = (m + 1) + 1 from rfl,
    ford_fulkerson_of_ne _ 0 5 (by rw [e3]; decide) (m + 1), e3,
    ford_fulkerson_of_zero _ 0 5 e4 (m + 1)]
  norm_num

/-- Witness for C1 at the concrete fuel 10. -/
theorem C1_witness :
    4 ≤ 10 ∧ (Graph.init classicMat).ford_fulkerson 0 5 10 = 23 :=
  ⟨by decide, C1_classic_network_max_flow_23 10 (by decide)⟩

/-- C3: for every square non-negative capacity matrix and every sequence of
`ff_step` calls, the pairwise sum `residual_graph[u][v] + residual_graph[v][u]`
always equals `graph[u][v] + graph[v][u]`. -/
theorem C3_residual_capacity_conservation (g : Mat)
    (hsq : isSquare g = true) (hnn : isNonneg g = true)
    (calls : List (Nat × Nat)) (u v : Nat) :
    getM (runCalls (Graph.init g) calls).residual_graph u v
      + getM (runCalls (Graph.init g) calls).residual_graph v u
      = getM g u v + getM g v u :=
  (runCalls_resid_inv (squareP_of_isSquare hsq) calls (Graph.init g)
    (eqShape_refl g) (fun _ _ => rfl)).2 u v

/-- Witness for C3 on the classic network after two augmentations. -/
theorem C3_witness :
    isSquare classicMat = true ∧ isNonneg classicMat = true ∧
      getM (runCalls (Graph.init classicMat) [(0, 5), (0, 5)]).residual_graph 1 3
        + getM (runCalls (Graph.init classicMat) [(0, 5), (0, 5)]).residual_graph 3 1
        = getM classicMat 1 3 + getM classicMat 3 1 :=
  ⟨by decide, by decide,
    C3_residual_capacity_conservation classicMat (by decide) (by decide) [(0, 5), (0, 5)] 1 3⟩

/-- C4 counterexample: in the 2-vertex network `[[0,1],[0,0]]`, after one
successful `ff_step 0 1` the next `ff_step 0 1` finds no augmenting path and
returns 0, but it does NOT leave `latest_augmenting_path` unchanged — the
matrix is reset to all-zero by `_bfs` although it was `[[0,1],[0,0]]`
before the call. -/
theorem C4_counterexample :
    (((Graph.init [[0, 1], [0, 0]]).ff_step 0 1).2.bfs 0 1).1 = none ∧
    ((((Graph.init [[0, 1], [0, 0]]).ff_step 0 1).2.ff_step 0 1).1 = 0 ∧
      ¬((((Graph.init [[0, 1], [0, 0]]).ff_step 0 1).2.ff_step 0 1).2.latest_augmenting_path
        = ((Graph.init [[0, 1], [0, 0]]).ff_step 0 1).2.latest_augmenting_path)) := by
  decide

/-- C4 (amended): when no augmenting path exists, `ff_step` returns 0 and
leaves `graph`, `residual_graph` and `current_flow` unchanged, while
`latest_augmenting_path` is reset to the all-zero matrix (so it is
unchanged only when it was already all-zero). -/
theorem C4_no_path_returns_zero_frame (G : Graph) (s t : Nat)
    (h : (G.bfs s t).1 = none) :
    (G.ff_step s t).1 = 0 ∧
    (G.ff_step s t).2.graph = G.graph ∧
    (G.ff_step s t).2.residual_graph = G.residual_graph ∧
    (G.ff_step s t).2.current_flow = G.current_flow ∧
    (G.ff_step s t).2.latest_augmenting_path = zerosLike G.graph := by
  rw [ff_step_of_none G s t h]
  exact ⟨rfl, rfl, rfl, rfl, rfl⟩

/-- Witness for the amended C4 at the concrete exhausted 2-vertex network. -/
theorem C4_witness :
    (((Graph.init [[0, 1], [0, 0]]).ff_step 0 1).2.bfs 0 1).1 = none ∧
    ((((Graph.init [[0, 1], [0, 0]]).ff_step 0 1).2.ff_step 0 1).1 = 0 ∧
      ((((Graph.init [[0, 1], [0, 0]]).ff_step 0 1).2.ff_step 0 1).2.graph
        = ((Graph.init [[0, 1], [0, 0]]).ff_step 0 1).2.graph ∧
      ((((Graph.init [[0, 1], [0, 0]]).ff_step 0 1).2.ff_step 0 1).2.residual_graph
        = ((Graph.init [[0, 1], [0, 0]]).ff_step 0 1).2.residual_graph ∧
      ((((Graph.init [[0, 1], [0, 0]]).ff_step 0 1).2.ff_step 0 1).2.current_flow
        = ((Graph.init [[0, 1], [0, 0]]).ff_step 0 1).2.current_flow ∧
      (((Graph.init [[0, 1], [0, 0]]).ff_step 0 1).2.ff_step 0 1).2.latest_augmenting_path
        = zerosLike ((Graph.init [[0, 1], [0, 0]]).ff_step 0 1).2.graph)))) :=
  ⟨by decide, C4_no_path_returns_zero_frame _ 0 1 (by decide)⟩

/-- C5 counterexample: on the square non-negative matrix `[[0,4],[4,0]]`
(which has an antiparallel pair of edges), the call sequence
`ff_step 0 1; ff_step 1 0` drives `current_flow[1][0]` to 8, strictly above
the original capacity `graph[1][0] = 4` — so the claimed invariant fails. -/
theorem C5_counterexample :
    isSquare [[0, 4], [4, 0]] = true ∧ isNonneg [[0, 4], [4, 0]] = true ∧
      ¬(getM (runCalls (Graph.init [[0, 4], [4, 0]]) [(0, 1), (1, 0)]).current_flow 1 0
          ≤ getM [[0, 4], [4, 0]] 1 0) := by
  refine ⟨by decide, by decide, ?_⟩
  decide

/-- C5 (amended): for every square non-negative capacity matrix with no
antiparallel pair of edges (`graph[i][j]` and `graph[j][i]` never both
nonzero) and every sequence of `ff_step` calls, no cell of `current_flow`
ever exceeds the corresponding original capacity. -/
theorem C5_flow_never_exceeds_capacity (g : Mat)
    (hsq : isSquare g = true) (hnn : isNonneg g = true)
    (hna : noAntiparallel g = true)
    (calls : List (Nat × Nat)) (u v : Nat) :
    getM (runCalls (Graph.init g) calls).current_flow u v ≤ getM g u v :=
  flowInv_flow_le (noAntiP_of_noAntiparallel hna)
    (runCalls_flowInv (squareP_of_isSquare hsq)
      calls (Graph.init g) (flowInv_init g (nonnegP_of_isNonneg hnn))) u v

/-- Witness for the amended C5 on the classic network after its three
augmentations. -/
theorem C5_witness :
    isSquare classicMat = true ∧ isNonneg classicMat = true ∧
      noAntiparallel classicMat = true ∧
      getM (runCalls (Graph.init classicMat) [(0, 5), (0, 5), (0, 5)]).current_flow 2 4
        ≤ getM classicMat 2 4 :=
  ⟨by decide, by decide, by decide,
    C5_flow_never_exceeds_capacity classicMat (by decide) (by decide) (by decide)
      [(0, 5), (0, 5), (0, 5)] 2 4⟩

/-- C6 counterexample: start from `[[0,4],[0,0]]`, push 4 units with
`ff_step 0 1`, then call `ff_step 1 0`.  That call finds an augmenting path
(the reverse residual edge 1→0) whose bottleneck is 4, yet it returns 0:
the push cancels the recorded flow on the forward edge, so the sum of
`current_flow[1]` does not change. -/
theorem C6_counterexample :
    ((runCalls (Graph.init [[0, 4], [0, 0]]) [(0, 1)]).bfs 1 0).1
        = some [some 1, none] ∧
    ((runCalls (Graph.init [[0, 4], [0, 0]]) [(0, 1)]).ff_step 1 0).1 = 0 ∧
    bottleneck (((runCalls (Graph.init [[0, 4], [0, 0]]) [(0, 1)]).ff_step 1 0).2.latest_augmenting_path)
        (runCalls (Graph.init [[0, 4], [0, 0]]) [(0, 1)]).residual_graph = some 4 ∧
    (0 : Int) ≠ 4 := by
  refine ⟨by decide, by decide, by decide, by decide⟩

/-- C6 (amended): in any state reached from a square non-negative capacity
matrix by `ff_step` calls that all use the same source `s` (as the
`ford_fulkerson` driver does), whenever `ff_step s t` finds an augmenting
path its return value — the change of `sum(current_flow[s])` — equals the
bottleneck capacity, i.e. the minimum residual capacity over the cells
marked in `latest_augmenting_path`. -/
theorem C6_step_returns_bottleneck (g : Mat)
    (hsq : isSquare g = true) (hnn : isNonneg g = true)
    (s : Nat) (hs : s < g.length) (sinks : List Nat) (t : Nat)
    (ps : List (Option Nat))
    (hfound : ((runCalls (Graph.init g) (sinks.map (fun t2 => (s, t2)))).bfs s t).1
      = some ps) :
    bottleneck
        (((runCalls (Graph.init g) (sinks.map (fun t2 => (s, t2)))).ff_step s t).2.latest_augmenting_path)
        (runCalls (Graph.init g) (sinks.map (fun t2 => (s, t2)))).residual_graph
      = some
        (((runCalls (Graph.init g) (sinks.map (fun t2 => (s, t2)))).ff_step s t).1) :=
  ff_step_fst_eq_bottleneck (squareP_of_isSquare hsq) _ s t hs
    (runCalls_sourceInv (squareP_of_isSquare hsq) s hs sinks (Graph.init g)
      (sourceInv_init g s (nonnegP_of_isNonneg hnn)))
    ps hfound

/-- Witness for the amended C6: the first augmentation on the classic
network returns its bottleneck 12. -/
theorem C6_witness :
    (isSquare classicMat = true ∧ isNonneg classicMat = true ∧ 0 < classicMat.length ∧
      ((Graph.init classicMat).bfs 0 5).1
        = some [none, some 0, some 0, some 1, some 2, some 3]) ∧
    bottleneck (((Graph.init classicMat).ff_step 0 5).2.latest_augmenting_path)
        (Graph.init classicMat).residual_graph
      = some (((Graph.init classicMat).ff_step 0 5).1) :=
  ⟨⟨by decide, by decide, by decide, by decide⟩,
    C6_step_returns_bottleneck classicMat (by decide) (by decide) 0 (by decide) [] 5
      [none, some 0, some 0, some 1, some 2, some 3] (by decide)⟩

end FF

namespace JKU

/-! ### Key sets of the association-list dictionaries (for C7) -/

theorem lookup_none_iff {β : Type _} :
    ∀ (l : List (String × β)) (a : String),
      List.lookup a l = none ↔ a ∉ l.map Prod.fst := by
  intro l
  induction l with
  | nil => intro a; simp
  | cons p ps ih =>
    intro a
    by_cases hax : a = p.1
    · subst hax
      simp [List.lookup]
    · have hbeq : (a == p.1) = false := beq_eq_false_iff_ne.2 hax
      simp [List.lookup, hbeq, hax, ih]

theorem lookup_map_pair_of_mem {α : Type _} (f : String → α) :
    ∀ (l : List String) (a : String), a ∈ l →
      List.lookup a (l.map (fun v => (v, f v))) = some (f a) := by
  intro l
  induction l with
  | nil => intro a h; cases h
  | cons x xs ih =>
    intro a h
    by_cases hax : a = x
    · subst hax
      simp [List.lookup]
    · have hbeq : (a == x) = false := beq_eq_false_iff_ne.2 hax
      have hmem : a ∈ xs := by
        rcases List.mem_cons.1 h with h1 | h1
        · exact absurd h1 hax
        · exact h1
      simp [List.lookup, hbeq, ih a hmem]

theorem keys_tab {α : Type _} (f : String → α) :
    ∀ l : List String, (l.map (fun v => (v, f v))).map Prod.fst = l := by
  intro l
  induction l with
  | nil => rfl
  | cons x xs ih => simp [ih]

theorem keys_dset (row : DRow) (k : String) (v : Option Nat) :
    (dset row k v).map Prod.fst = row.map Prod.fst := by
  unfold dset
  induction row with
  | nil => rfl
  | cons p ps ih =>
    simp only [List.map_cons]
    rw [ih]
    by_cases h : p.1 = k <;> simp [h]

theorem keys_pset (row : PRow) (k : String) (v : List Step) :
    (pset row k v).map Prod.fst = row.map Prod.fst := by
  unfold pset
  induction row with
  | nil => rfl
  | cons p ps ih =>
    simp only [List.map_cons]
    rw [ih]
    by_cases h : p.1 = k <;> simp [h]

theorem relax_keys (G : Graph) (cur : String) (visited : List String)
    (dp : DRow × PRow) (x : String) :
    (relax G cur visited dp x).1.map Prod.fst = dp.1.map Prod.fst ∧
    (relax G cur visited dp x).2.map Prod.fst = dp.2.map Prod.fst := by
  unfold relax
  by_cases h1 : x ∈ visited
  · simp only [if_pos h1]
    exact ⟨trivial, trivial⟩
  · simp only [if_neg h1]
    by_cases h2 : ltInf (addInf (dget dp.1 cur)
        (((G.find_edge cur x).map Edge.weight).getD 0)) (dget dp.1 x) = true
    · simp only [if_pos h2]
      by_cases h3 : (pget dp.2 cur).length = 0
      · simp only [if_pos h3]
        exact ⟨keys_dset _ _ _, by rw [keys_pset, keys_pset]⟩
      · simp only [if_neg h3]
        exact ⟨keys_dset _ _ _, keys_pset _ _ _⟩
    · simp only [if_neg h2]
      exact ⟨trivial, trivial⟩

theorem foldl_relax_keys (G : Graph) (cur : String) (visited : List String) :
    ∀ (l : List String) (dp : DRow × PRow),
      (l.foldl (relax G cur visited) dp).1.map Prod.fst = dp.1.map Prod.fst ∧
      (l.foldl (relax G cur visited) dp).2.map Prod.fst = dp.2.map Prod.fst := by
  intro l
  induction l with
  | nil => intro dp; exact ⟨rfl, rfl⟩
  | cons x xs ih =>
    intro dp
    rw [List.foldl_cons]
    refine ⟨?_, ?_⟩
    · rw [(ih (relax G cur visited dp x)).1, (relax_keys G cur visited dp x).1]
    · rw [(ih (relax G cur visited dp x)).2, (relax_keys G cur visited dp x).2]

theorem dijkstra_keys (G : Graph) :
    ∀ (fuel : Nat) (cur : String) (visited : List String) (distances : DRow) (paths : PRow),
      (dijkstra G fuel cur visited distances paths).1.map Prod.fst
          = distances.map Prod.fst ∧
      (dijkstra G fuel cur visited distances paths).2.map Prod.fst
          = paths.map Prod.fst := by
  intro fuel
  induction fuel with
  | zero => intro cur visited distances paths; exact ⟨rfl, rfl⟩
  | succ fuel ih =>
    intro cur visited distances paths
    rw [dijkstra]
    have hfold := foldl_relax_keys G cur (cur :: visited)
      (G.get_adjacent_vertices cur) (distances, paths)
    cases hfind : (sortedByDist ((G.get_adjacent_vertices cur).foldl
        (relax G cur (cur :: visited)) (distances, paths)).1).find?
        (fun v => !((cur :: visited).contains v)) with
    | none =>
      simp only [hfind]
      exact hfold
    | some next =>
      simp only [hfind]
      refine ⟨?_, ?_⟩
      · rw [(ih next (cur :: visited) _ _).1, hfold.1]
      · rw [(ih next (cur :: visited) _ _).2, hfold.2]

theorem jkuRow_fst_keys (v : String) :
    (jkuRow v).1.map Prod.fst = jkuGraph.vertices := by
  unfold jkuRow
  rw [(dijkstra_keys jkuGraph _ v [] _ _).1]
  unfold initDRow
  exact keys_tab _ jkuGraph.vertices

theorem jkuRow_snd_keys (v : String) :
    (jkuRow v).2.map Prod.fst = jkuGraph.vertices := by
  unfold jkuRow
  rw [(dijkstra_keys jkuGraph _ v [] _ _).2]
  unfold initPRow
  exact keys_tab _ jkuGraph.vertices

theorem jku_vertices_eq : jkuGraph.vertices = locations := by decide

/-- C2: for every ordered pair of distinct vertices of the fixed map with
`b` reachable from `a` (reported distance not the `-1` sentinel), the
returned path starts at `a` with covered distance 0, ends with covered
distance equal to the reported shortest distance, and its consecutive
steps are joined by graph edges whose weights sum to that distance; in
particular the path from Teichwerk to Library is
Teichwerk(0) → LUI(135) → Library(225). -/
theorem C2_shortest_paths_well_formed :
    (∀ a ∈ locations, ∀ b ∈ locations, a ≠ b →
      reportedDist mkJKUMap a b ≠ some (-1) →
      pathSpecOk mkJKUMap a b = true) ∧
    get_shortest_path_from_to mkJKUMap (some ("Teichwerk")) (some ("Library"))
      = Except.ok (some [Step.mk ("Teichwerk") (some 0), Step.mk ("LUI") (some 135),
          Step.mk ("Library") (some 225)]) ∧
    reportedDist mkJKUMap ("Teichwerk") ("Library") = some 225 := by
  refine ⟨?_, by decide, by decide⟩
  decide

/-- C7 counterexample: an absent (never-inserted) origin vertex makes
`get_shortest_distances_from` raise `KeyError` — a second error kind beside
`ValueError` — because `self.distances[from_vertex]` is a plain dict lookup,
so the claim that the queries raise only the single `InvalidArgument`
(`ValueError`) kind is wrong. -/
theorem C7_counterexample :
    get_shortest_distances_from mkJKUMap (some ("NowhereX"))
        = Except.error PyError.keyError ∧
      PyError.keyError ≠ PyError.valueError := by
  constructor
  · decide
  · decide

/-- C7 (amended): the full error taxonomy of the three queries on the
constructed map.  `ValueError` is raised exactly for a `None` argument and
for equal endpoints of the path query; an absent (non-`None`) vertex
argument instead raises `KeyError` from the dict lookup; every other input
returns normally. -/
theorem C7_error_taxonomy :
    (∀ f t : Option String,
        get_shortest_path_from_to mkJKUMap f t = Except.error PyError.valueError
          ↔ (f = none ∨ t = none ∨ f = t)) ∧
    (∀ f : Option String,
        get_shortest_distances_from mkJKUMap f = Except.error PyError.valueError
          ↔ f = none) ∧
    (∀ f : Option String,
        get_steps_for_shortest_paths_from mkJKUMap f = Except.error PyError.valueError
          ↔ f = none) ∧
    (∀ a b : String,
        get_shortest_path_from_to mkJKUMap (some a) (some b)
            = Except.error PyError.keyError
          ↔ (a ≠ b ∧ (a ∉ locations ∨ b ∉ locations))) ∧
    (∀ a : String,
        get_shortest_distances_from mkJKUMap (some a) = Except.error PyError.keyError
          ↔ a ∉ locations) ∧
    (∀ a : String,
        get_steps_for_shortest_paths_from mkJKUMap (some a)
            = Except.error PyError.keyError
          ↔ a ∉ locations) ∧
    (∀ a b : String, a ≠ b → a ∈ locations → b ∈ locations →
        ∃ r, get_shortest_path_from_to mkJKUMap (some a) (some b) = Except.ok r) ∧
    (∀ a : String, a ∈ locations →
        ∃ r, get_shortest_distances_from mkJKUMap (some a) = Except.ok r) ∧
    (∀ a : String, a ∈ locations →
        ∃ r, get_steps_for_shortest_paths_from mkJKUMap (some a) = Except.ok r) := by
  have hD : mkJKUMap.distances = jkuGraph.vertices.map (fun v => (v, (jkuRow v).1)) := rfl
  have hP : mkJKUMap.paths = jkuGraph.vertices.map (fun v => (v, (jkuRow v).2)) := rfl
  have hDkeys : mkJKUMap.distances.map Prod.fst = locations := by
    rw [hD, keys_tab, jku_vertices_eq]
  have hPkeys : mkJKUMap.paths.map Prod.fst = locations := by
    rw [hP, keys_tab, jku_vertices_eq]
  have hDnone : ∀ a : String,
      List.lookup a mkJKUMap.distances = none ↔ a ∉ locations := by
    intro a
    rw [lookup_none_iff, hDkeys]
  have hPnone : ∀ a : String,
      List.lookup a mkJKUMap.paths = none ↔ a ∉ locations := by
    intro a
    rw [lookup_none_iff, hPkeys]
  have hDsome : ∀ a : String, a ∈ locations →
      List.lookup a mkJKUMap.distances = some ((jkuRow a).1) := by
    intro a ha
    rw [hD]
    exact lookup_map_pair_of_mem _ jkuGraph.vertices a
      (by rw [jku_vertices_eq]; exact ha)
  have hPsome : ∀ a : String, a ∈ locations →
      List.lookup a mkJKUMap.paths = some ((jkuRow a).2) := by
    intro a ha
    rw [hP]
    exact lookup_map_pair_of_mem _ jkuGraph.vertices a
      (by rw [jku_vertices_eq]; exact ha)
  have hrowNone : ∀ a b : String,
      List.lookup b (jkuRow a).2 = none ↔ b ∉ locations := by
    intro a b
    rw [lookup_none_iff, jkuRow_snd_keys, jku_vertices_eq]
  refine ⟨?_, ?_, ?_, ?_, ?_, ?_, ?_, ?_, ?_⟩
  · intro f t
    cases f with
    | none => simp [get_shortest_path_from_to]
    | some a =>
      cases t with
      | none => simp [get_shortest_path_from_to]
      | some b =>
        by_cases hab : a = b
        · subst hab
          simp [get_shortest_path_from_to]
        · simp only [get_shortest_path_from_to, if_neg hab]
          constructor
          · intro h
            exfalso
            cases h1 : List.lookup a mkJKUMap.paths with
            | none =>
              simp only [h1] at h
              exact absurd (Except.error.inj h) (by decide)
            | some row =>
              simp only [h1] at h
              cases h2 : List.lookup b row with
              | none =>
                simp only [h2] at h
                exact absurd (Except.error.inj h) (by decide)
              | some result =>
                simp only [h2] at h
                exact Except.noConfusion h
          · intro h
            rcases h with h | h | h
            · exact absurd h (by simp)
            · exact absurd h (by simp)
            · exact absurd (Option.some.inj h) hab
  · intro f
    cases f with
    | none => simp [get_shortest_distances_from]
    | some a =>
      simp only [get_shortest_distances_from]
      constructor
      · intro h
        exfalso
        cases h1 : List.lookup a mkJKUMap.distances with
        | none =>
          simp only [h1] at h
          exact absurd (Except.error.inj h) (by decide)
        | some row =>
          simp only [h1] at h
          exact Except.noConfusion h
      · intro h
        exact Option.noConfusion h
  · intro f
    cases f with
    | none => simp [get_steps_for_shortest_paths_from]
    | some a =>
      simp only [get_steps_for_shortest_paths_from]
      constructor
      · intro h
        exfalso
        cases h1 : List.lookup a mkJKUMap.paths with
        | none =>
          simp only [h1] at h
          exact absurd (Except.error.inj h) (by decide)
        | some row =>
          simp only [h1] at h
          exact Except.noConfusion h
      · intro h
        exact Option.noConfusion h
  · intro a b
    by_cases hab : a = b
    · subst hab
      simp only [get_shortest_path_from_to, if_pos rfl]
      constructor
      · intro h
        exact absurd (Except.error.inj h) (by decide)
      · intro h
        exact absurd rfl h.1
    · simp only [get_shortest_path_from_to, if_neg hab]
      by_cases hal : a ∈ locations
      · simp only [hPsome a hal]
        by_cases hbl : b ∈ locations
        · cases h2 : List.lookup b (jkuRow a).2 with
          | none => exact absurd hbl ((hrowNone a b).1 h2)
          | some result =>
            simp only [h2]
            constructor
            · intro h
              exact Except.noConfusion h
            · intro h
              rcases h.2 with hc | hc
              · exact absurd hal hc
              · exact absurd hbl hc
        · simp only [(hrowNone a b).2 hbl]
          constructor
          · intro _
            exact ⟨hab, Or.inr hbl⟩
          · intro _
            trivial
      · simp only [(hPnone a).2 hal]
        constructor
        · intro _
          exact ⟨hab, Or.inl hal⟩
        · intro _
          trivial
  · intro a
    simp only [get_shortest_distances_from]
    by_cases hal : a ∈ locations
    · simp only [hDsome a hal]
      constructor
      · intro h
        exact Except.noConfusion h
      · intro h
        exact absurd hal h
    · simp only [(hDnone a).2 hal]
      constructor
      · intro _
        exact hal
      · intro _
        trivial
  · intro a
    simp only [get_steps_for_shortest_paths_from]
    by_cases hal : a ∈ locations
    · simp only [hPsome a hal]
      constructor
      · intro h
        exact Except.noConfusion h
      · intro h
        exact absurd hal h
    · simp only [(hPnone a).2 hal]
      constructor
      · intro _
        exact hal
      · intro _
        trivial
  · intro a b hab hal hbl
    simp only [get_shortest_path_from_to, if_neg hab, hPsome a hal]
    cases h2 : List.lookup b (jkuRow a).2 with
    | none => exact absurd hbl ((hrowNone a b).1 h2)
    | some result =>
      simp only [h2]
      exact ⟨_, rfl⟩
  · intro a hal
    simp only [get_shortest_distances_from, hDsome a hal]
    exact ⟨_, rfl⟩
  · intro a hal
    simp only [get_steps_for_shortest_paths_from, hPsome a hal]
    exact ⟨_, rfl⟩

/-- C8 counterexample: the stored `paths["Spar"]["Spar"]` is not the empty
list — it is the singleton `[Step("Spar", 0)]` seeded by the first
relaxation from the origin. -/
theorem C8_counterexample :
    (List.lookup ("Spar") mkJKUMap.paths).map (fun row => List.lookup ("Spar") row)
      = some (some [Step.mk ("Spar") (some 0)]) ∧
    (some (some [Step.mk ("Spar") (some 0)])
      ≠ (some (some ([] : List Step)) : Option (Option (List Step)))) := by
  refine ⟨by decide, by decide⟩

/-- C8 (amended): after construction every vertex's stored distance to
itself is 0 (and `get_shortest_distances_from` reports 0 for it), but the
stored path table entry `paths[v][v]` is the one-element list
`[Step(v, 0)]`, not the empty list. -/
theorem C8_self_distance_zero_self_path_seeded :
    ∀ v ∈ locations, selfRowOk mkJKUMap v = true := by
  decide

/-- Witness for the amended C8 at the concrete vertex Spar. -/
theorem C8_witness :
    ("Spar" ∈ locations) ∧ selfRowOk mkJKUMap ("Spar") = true :=
  ⟨by decide, C8_self_distance_zero_self_path_seeded ("Spar") (by decide)⟩

/-- C9: for every ordered pair of vertices of the fixed map, the step-count
query reports the `-1` sentinel exactly when the distance query does. -/
theorem C9_sentinels_agree :
    ∀ v ∈ locations, ∀ w ∈ locations, sentinelAgree mkJKUMap v w = true := by
  decide

/-- Witness for C9 at the concrete pair (Teichwerk, Castle). -/
theorem C9_witness :
    ("Teichwerk" ∈ locations ∧ "Castle" ∈ locations) ∧
      sentinelAgree mkJKUMap ("Teichwerk") ("Castle") = true :=
  ⟨⟨by decide, by decide⟩,
    C9_sentinels_agree ("Teichwerk") (by decide) ("Castle") (by decide)⟩

/-- C10: every vertex's reported step count to itself is 0, because the
origin's own path entry is seeded to `[Step(v, 0)]` during the first
relaxation, so its length minus one is 0 rather than -1. -/
theorem C10_origin_step_count_zero :
    ∀ v ∈ locations, originSelfOk mkJKUMap v = true := by
  decide

/-- Witness for C10 at the concrete vertex LUI. -/
theorem C10_witness :
    ("LUI" ∈ locations) ∧ originSelfOk mkJKUMap ("LUI") = true :=
  ⟨by decide, C10_origin_step_count_zero ("LUI") (by decide)⟩

end JKU
